import Mathlib

/-!
# Verification of the period-concatenation core (shaka-streamer)

Shallow embedding of `src/streamer/periodconcat_node.py`:

* the nested `ISO8601` duration helper (parse / str / add), with Python
  integers modelled as `Nat` (all values arising here are nonnegative) and
  Python floats modelled as exact decimal fractions `num / 10 ^ exp`
  (`PyFloat`).  This idealisation is exact for every value manipulated in
  the theorems below; IEEE rounding of doubles is outside the model and is
  flagged where it matters.
* the XML element trees handled through `xml.etree.ElementTree`, as a
  simple tag / attributes / text / children structure.  All tags of the
  manifests live in the single DASH namespace, so tags are kept as local
  names.
* the POSIX `os.path.relpath` / `os.path.join` calls, modelled from their
  documented semantics for normalised relative paths.
* the `_dash_concat` merge algorithm and the `_thread_single_pass`
  watcher tick.

Failure paths (failed `assert`, `int()` / `float()` conversion errors,
missing dictionary keys) are modelled with `Except PyErr`.
-/

namespace PeriodConcat

/-! ## Characters and decimal digits -/

/-- The character class `[0-9]` of the duration regular expression. -/
def isDig (c : Char) : Bool :=
  48 ≤ c.toNat && c.toNat ≤ 57

/-- The character class `[0-9.]` used for the seconds group. -/
def isDigDot (c : Char) : Bool :=
  isDig c || c = '.'

/-- The decimal digit character for a value below ten. -/
def digitChar : ℕ → Char
  | 0 => '0' | 1 => '1' | 2 => '2' | 3 => '3' | 4 => '4'
  | 5 => '5' | 6 => '6' | 7 => '7' | 8 => '8' | _ => '9'

/-- Numeric value of a digit character. -/
def digVal (c : Char) : ℕ := c.toNat - 48

/-- Value of a decimal digit string, most significant digit first; this is
what Python `int()` computes on a nonempty digit string. -/
def pyIntVal (cs : List Char) : ℕ :=
  cs.foldl (fun a c => 10 * a + digVal c) 0

/-- Digits of `n`, most significant first, driven by explicit fuel so that
the definition is structural.  `decAux fuel 0 = []`. -/
def decAux : ℕ → ℕ → List Char
  | 0, _ => []
  | _, 0 => []
  | fuel + 1, n => decAux fuel (n / 10) ++ [digitChar (n % 10)]

/-- Decimal rendering of a natural number: the model of Python `str` on a
nonnegative integer. -/
def decRepr (n : ℕ) : String :=
  if n = 0 then "0" else String.mk (decAux n n)

theorem digitChar_isDig (d : ℕ) (h : d < 10) : isDig (digitChar d) = true := by
  interval_cases d <;> decide

theorem digVal_digitChar (d : ℕ) (h : d < 10) : digVal (digitChar d) = d := by
  interval_cases d <;> decide

theorem pyIntVal_append_digit (cs : List Char) (c : Char) :
    pyIntVal (cs ++ [c]) = 10 * pyIntVal cs + digVal c := by
  simp [pyIntVal, List.foldl_append]

theorem decAux_all_dig (fuel n : ℕ) : ∀ c ∈ decAux fuel n, isDig c = true := by
  induction fuel generalizing n with
  | zero => simp [decAux]
  | succ f ih =>
    intro c hc
    match n, hc with
    | m + 1, hc =>
      simp only [decAux, List.mem_append, List.mem_singleton] at hc
      rcases hc with hc | hc
      · exact ih _ c hc
      · subst hc
        exact digitChar_isDig _ (Nat.mod_lt _ (by norm_num))

theorem pyIntVal_decAux (fuel n : ℕ) (h : n < 10 ^ fuel) :
    pyIntVal (decAux fuel n) = n := by
  induction fuel generalizing n with
  | zero => interval_cases n; simp [decAux, pyIntVal]
  | succ f ih =>
    cases n with
    | zero => simp [decAux, pyIntVal]
    | succ m =>
      have hstep : decAux (f + 1) (m + 1)
          = decAux f ((m + 1) / 10) ++ [digitChar ((m + 1) % 10)] := rfl
      rw [hstep, pyIntVal_append_digit, ih]
      · rw [digVal_digitChar _ (Nat.mod_lt _ (by norm_num))]
        omega
      · have hp : (10 : ℕ) ^ (f + 1) = 10 ^ f * 10 := pow_succ 10 f
        omega

theorem decAux_ne_nil (fuel n : ℕ) (hf : 0 < fuel) (hn : 0 < n) :
    decAux fuel n ≠ [] := by
  match fuel, n with
  | f + 1, m + 1 => simp [decAux]

/-- A number below `10 ^ k` has at most `k` digits. -/
theorem decAux_length_le (fuel n k : ℕ) (h : n < 10 ^ k) :
    (decAux fuel n).length ≤ k := by
  induction fuel generalizing n k with
  | zero => simp [decAux]
  | succ f ih =>
    cases n with
    | zero => simp [decAux]
    | succ m =>
      cases k with
      | zero =>
        rw [pow_zero] at h
        omega
      | succ k =>
        have hstep : decAux (f + 1) (m + 1)
            = decAux f ((m + 1) / 10) ++ [digitChar ((m + 1) % 10)] := rfl
        rw [hstep, List.length_append, List.length_singleton]
        have hdiv : (m + 1) / 10 < 10 ^ k := by
          have hp : (10 : ℕ) ^ (k + 1) = 10 ^ k * 10 := pow_succ 10 k
          omega
        have := ih ((m + 1) / 10) k hdiv
        omega

theorem lt_ten_pow_self (n : ℕ) : n < 10 ^ n := Nat.lt_pow_self (by norm_num) n

theorem decRepr_spec (n : ℕ) :
    (decRepr n).data ≠ [] ∧ (∀ c ∈ (decRepr n).data, isDig c = true) ∧
      pyIntVal (decRepr n).data = n := by
  by_cases h : n = 0
  · subst h; refine ⟨by decide, by decide, by decide⟩
  · unfold decRepr
    rw [if_neg h]
    refine ⟨?_, ?_, ?_⟩
    · simpa using decAux_ne_nil n n (by omega) (by omega)
    · simpa using decAux_all_dig n n
    · simpa using pyIntVal_decAux n n (lt_ten_pow_self n)

/-! ## Python numbers: exact model of the values flowing through ISO8601

`PyFloat` represents a Python float by an exact decimal fraction
`num / 10 ^ exp`.  Every float built by this program comes from `float()`
on a decimal literal or from sums of such values, and every value reaching
`repr` in the theorems below is exactly representable, so the decimal
idealisation coincides with the double computed by Python there. -/

structure PyFloat where
  num : ℕ
  exp : ℕ
  deriving DecidableEq, Repr

/-- A Python number as stored in the `seconds` field: the class default is
the int `0`, while `parse` always stores a float. -/
inductive PyNum where
  | pint (n : ℕ)
  | pfloat (f : PyFloat)
  deriving DecidableEq, Repr

/-- Strip trailing decimal zeros: `normFloat n e` divides `n` by ten while
the last digit is zero and fraction digits remain. -/
def normFloat : ℕ → ℕ → ℕ × ℕ
  | n, 0 => (n, 0)
  | n, e + 1 => if n % 10 = 0 then normFloat (n / 10) e else (n, e + 1)

/-- Position of the decimal point relative to the significant digits:
for a nonzero value `num / 10 ^ exp` written as `0.d1d2... * 10 ^ decPos`
this is the count of digits of `num` minus `exp` (trailing zeros of `num`
contribute to the digit count and cancel against the shifted exponent).
CPython renders positionally exactly when `-4 < decPos ≤ 16` and falls
back to exponent notation otherwise. -/
def decPos (f : PyFloat) : ℤ :=
  ((decAux f.num f.num).length : ℤ) - (f.exp : ℤ)

/-- Strip factors of ten from `n`, returning the significand and the count
of stripped zeros, fuel-driven: `stripTens n n = (m, k)` with
`n = m * 10 ^ k` and `m` not divisible by ten for nonzero `n`. -/
def stripTens : ℕ → ℕ → ℕ × ℕ
  | 0, n => (n, 0)
  | fuel + 1, n =>
    if n % 10 = 0 ∧ n ≠ 0 then
      let r := stripTens fuel (n / 10)
      (r.1, r.2 + 1)
    else (n, 0)

/-- Exponent magnitude rendering of CPython: zero-padded to at least two
digits (`e-05`, `e+16`, `e+100`). -/
def expDigits (a : ℕ) : String :=
  if a < 10 then "0" ++ decRepr a else decRepr a

/-- Exponent-notation rendering of a nonzero float, as CPython produces
for magnitudes below `1e-4` or at least `1e16`: a one-digit integer part,
the remaining significant digits after a decimal point only when there is
more than one, then `e` with a signed, two-digit-padded exponent
(`1e-05`, `1.2e-05`, `1e+16`). -/
def sciRepr (f : PyFloat) : String :=
  let m := (stripTens f.num f.num).1
  let mant :=
    match decAux m m with
    | [] => "0"
    | d :: rest =>
      if rest.isEmpty then String.mk [d]
      else String.mk [d] ++ "." ++ String.mk rest
  if 1 ≤ decPos f then mant ++ "e+" ++ expDigits (decPos f - 1).toNat
  else mant ++ "e-" ++ expDigits (1 - decPos f).toNat

/-- Model of Python `repr` on a (finite, exactly decimal) float.  Zero is
`0.0`.  In the positional regime — decimal point position in `(-4, 16]`,
i.e. magnitude in `[1e-4, 1e16)` — trailing zeros are removed and the
value is printed with a decimal point, integral values as `n.0`.  Outside
that regime CPython switches to exponent notation (`str(0.00001)` is
`1e-05`, `str(1e16)` is `1e+16`), which has no decimal point when a
single significant digit remains. -/
def pyFloatRepr (f : PyFloat) : String :=
  if f.num = 0 then "0" ++ "." ++ "0"
  else if -4 < decPos f ∧ decPos f ≤ 16 then
    match normFloat f.num f.exp with
    | (n, 0) => decRepr n ++ "." ++ "0"
    | (n, e + 1) =>
      let fs := decRepr (n % 10 ^ (e + 1))
      decRepr (n / 10 ^ (e + 1)) ++ "." ++
        String.mk (List.replicate (e + 1 - fs.length) '0') ++ fs
  else sciRepr f

/-- Model of Python `str` on the seconds field. -/
def pyNumStr : PyNum → String
  | .pint n => decRepr n
  | .pfloat f => pyFloatRepr f

/-- Exact sum of two decimal fractions (Python float addition, idealised
as exact). -/
def PyFloat.add (f g : PyFloat) : PyFloat :=
  let e := max f.exp g.exp
  ⟨f.num * 10 ^ (e - f.exp) + g.num * 10 ^ (e - g.exp), e⟩

/-- Python `+` on the seconds field: int + int stays int, any float makes
the result a float (numeric promotion). -/
def PyNum.add : PyNum → PyNum → PyNum
  | .pint a, .pint b => .pint (a + b)
  | .pint a, .pfloat g => .pfloat (PyFloat.add ⟨a, 0⟩ g)
  | .pfloat f, .pint b => .pfloat (PyFloat.add f ⟨b, 0⟩)
  | .pfloat f, .pfloat g => .pfloat (PyFloat.add f g)

/-- In the positional regime (zero, or decimal point position in
`(-4, 16]`) the rendering of a float contains a decimal point. -/
theorem pyFloatRepr_positional_dot (f : PyFloat)
    (h : f.num = 0 ∨ (-4 < decPos f ∧ decPos f ≤ 16)) :
    ∃ a b : String, pyFloatRepr f = a ++ "." ++ b := by
  by_cases h0 : f.num = 0
  · exact ⟨"0", "0", by simp [pyFloatRepr, h0]⟩
  · have hpos : -4 < decPos f ∧ decPos f ≤ 16 := h.resolve_left h0
    rcases hn : normFloat f.num f.exp with ⟨n, e⟩
    cases e with
    | zero =>
      exact ⟨decRepr n, "0", by simp [pyFloatRepr, h0, hpos.1, hpos.2, hn]⟩
    | succ e =>
      exact ⟨decRepr (n / 10 ^ (e + 1)),
        String.mk (List.replicate (e + 1 - (decRepr (n % 10 ^ (e + 1))).length) '0') ++
          decRepr (n % 10 ^ (e + 1)),
        by simp [pyFloatRepr, h0, hpos.1, hpos.2, hn, String.append_assoc]⟩

/-! ## The duration pattern

`ISO8601.parse` matches
`^P(?:([0-9]*)Y)?(?:([0-9]*)M)?(?:([0-9]*)D)?`
`(?:T(?:([0-9]*)H)?(?:([0-9]*)M)?(?:([0-9.]*)S)?)?$`
with `re.search`.  Since the literal letters are outside both character
classes, greedy matching with backtracking is equivalent to the
deterministic maximal-munch matcher below (only the maximal digit run can
be followed by the literal).  The `$` anchor of the Python `re` module also
matches just before one newline at the very end of the string, which
`stripNl` accounts for; no character of the pattern can consume a newline,
so trying the stripped string subsumes both anchor positions. -/

/-- Longest prefix of characters satisfying `p`, with the rest. -/
def takeCls (p : Char → Bool) : List Char → List Char × List Char
  | [] => ([], [])
  | c :: cs =>
    if p c then
      let r := takeCls p cs
      (c :: r.1, r.2)
    else ([], c :: cs)

theorem takeCls_append (p : Char → Bool) (cs : List Char) :
    (takeCls p cs).1 ++ (takeCls p cs).2 = cs := by
  induction cs with
  | nil => rfl
  | cons c cs ih =>
    by_cases h : p c <;> simp [takeCls, h, ih]

theorem takeCls_all (p : Char → Bool) (cs : List Char) :
    ∀ c ∈ (takeCls p cs).1, p c = true := by
  induction cs with
  | nil => simp [takeCls]
  | cons c cs ih =>
    by_cases h : p c
    · intro a ha
      simp only [takeCls, h, if_true] at ha
      rcases List.mem_cons.mp ha with rfl | ha
      · exact h
      · exact ih a ha
    · simp [takeCls, h]

theorem takeCls_rest_head (p : Char → Bool) (cs : List Char) (c : Char)
    (rest : List Char) (h : (takeCls p cs).2 = c :: rest) : p c = false := by
  induction cs with
  | nil => simp [takeCls] at h
  | cons a as ih =>
    by_cases ha : p a
    · apply ih
      simpa [takeCls, ha] using h
    · simp [takeCls, ha] at h
      rw [← h.1]
      simp [ha]

theorem takeCls_nonhead (p : Char → Bool) (c : Char) (cs : List Char)
    (h : p c = false) : takeCls p (c :: cs) = ([], c :: cs) := by
  simp [takeCls, h]

/-- One optional `(?:([0-9]*)lit)?` component of the matcher: the group
(possibly empty) and the rest of the input, or no group and unchanged
input. -/
def mcomp (lit : Char) (cs : List Char) : Option (List Char) × List Char :=
  match takeCls isDig cs with
  | (run, c :: rest) => if c = lit then (some run, rest) else (none, cs)
  | (_, []) => (none, cs)

/-- The `(?:([0-9.]*)S)?` component of the matcher. -/
def msec (cs : List Char) : Option (List Char) × List Char :=
  match takeCls isDigDot cs with
  | (run, c :: rest) => if c = 'S' then (some run, rest) else (none, cs)
  | (_, []) => (none, cs)

/-- The six capture groups of the duration pattern. -/
structure Groups where
  gy : Option (List Char)
  gmo : Option (List Char)
  gd : Option (List Char)
  gh : Option (List Char)
  gmi : Option (List Char)
  gs : Option (List Char)
  deriving DecidableEq, Repr

/-- The optional time portion `(?:T...)?` of the pattern followed by the
`$` anchor, carried out on the input left after the date components. -/
def tailMatch (gy gmo gd : Option (List Char)) (cs4 : List Char) : Option Groups :=
  match cs4 with
  | [] => some ⟨gy, gmo, gd, none, none, none⟩
  | c4 :: cs5 =>
    if c4 = 'T' then
      let h := mcomp 'H' cs5
      let mi := mcomp 'M' h.2
      let s := msec mi.2
      if s.2 = [] then some ⟨gy, gmo, gd, h.1, mi.1, s.1⟩ else none
    else none

/-- `re.search` of the duration pattern against a whole string (after the
`$`-before-final-newline normalisation): the groups on success. -/
def pyMatchCore (cs : List Char) : Option Groups :=
  match cs with
  | [] => none
  | c :: cs1 =>
    if c = 'P' then
      let y := mcomp 'Y' cs1
      let mo := mcomp 'M' y.2
      let d := mcomp 'D' mo.2
      tailMatch y.1 mo.1 d.1 d.2
    else none

/-- Drop the single trailing newline tolerated by the `$` anchor. -/
def stripNl (cs : List Char) : List Char :=
  if cs.getLast? = some '\n' then cs.dropLast else cs

/-! ## Python number conversions -/

/-- `int()` applied to a capture group after `groups('0')`: an unmatched
group defaults to `"0"`, an empty matched group raises `ValueError`. -/
def pyInt : Option (List Char) → Option ℕ
  | none => some 0
  | some [] => none
  | some (c :: cs) => some (pyIntVal (c :: cs))

/-- Whether `float()` accepts a string drawn from the class `[0-9.]*`: at
least one digit and at most one dot. -/
def floatOk (r : List Char) : Bool :=
  !r.isEmpty && r.all isDigDot && r.any isDig &&
    decide ((r.filter (· == '.')).length ≤ 1)

/-- Exact value of a `float()`-accepted digits-and-dot string. -/
def floatVal (r : List Char) : PyFloat :=
  match takeCls isDig r with
  | (ip, '.' :: fp) => ⟨pyIntVal ip * 10 ^ fp.length + pyIntVal fp, fp.length⟩
  | (ip, _) => ⟨pyIntVal ip, 0⟩

/-- `float()` applied to the seconds group after `groups('0')`. -/
def pyFloatGroup : Option (List Char) → Option PyFloat
  | none => some ⟨0, 0⟩
  | some r => if floatOk r then some (floatVal r) else none

/-! ## The ISO8601 helper class -/

/-- The Python exceptions this core can raise. -/
inductive PyErr where
  | assertionError
  | valueError
  | keyError
  | indexError
  deriving DecidableEq, Repr

/-- The nested duration helper: five integer components and a seconds
field holding either the int `0` of the default constructor or a float
produced by `parse` and addition. -/
structure ISO8601 where
  years : ℕ
  months : ℕ
  days : ℕ
  hours : ℕ
  minutes : ℕ
  seconds : PyNum
  deriving DecidableEq, Repr

/-- `ISO8601()` with every argument defaulted. -/
def ISO8601.default0 : ISO8601 := ⟨0, 0, 0, 0, 0, .pint 0⟩

/-- Conversion of the capture groups to the native representation:
`int` on the first five groups, `float` on the sixth. -/
def parseGroups (g : Groups) : Except PyErr ISO8601 :=
  match pyInt g.gy with
  | none => .error .valueError
  | some y =>
    match pyInt g.gmo with
    | none => .error .valueError
    | some mo =>
      match pyInt g.gd with
      | none => .error .valueError
      | some d =>
        match pyInt g.gh with
        | none => .error .valueError
        | some h =>
          match pyInt g.gmi with
          | none => .error .valueError
          | some mi =>
            match pyFloatGroup g.gs with
            | none => .error .valueError
            | some f => .ok ⟨y, mo, d, h, mi, .pfloat f⟩

/-- The whole of `ISO8601.parse` on a character list: failed pattern match
raises the parsing assertion, conversion failures raise `ValueError`. -/
def parseAt (cs : List Char) : Except PyErr ISO8601 :=
  match pyMatchCore cs with
  | none => .error .assertionError
  | some g => parseGroups g

/-- `ISO8601.parse` on a Python string. -/
def ISO8601.parse (s : String) : Except PyErr ISO8601 :=
  parseAt (stripNl s.data)

/-- `ISO8601.__str__`: `"P{}Y{}M{}DT{}H{}M{}S".format(...)`. -/
def ISO8601.str (v : ISO8601) : String :=
  "P" ++ decRepr v.years ++ "Y" ++ decRepr v.months ++ "M" ++ decRepr v.days ++
    "DT" ++ decRepr v.hours ++ "H" ++ decRepr v.minutes ++ "M" ++
    pyNumStr v.seconds ++ "S"

/-- `ISO8601.__add__`: component-wise sums. -/
def ISO8601.add (a b : ISO8601) : ISO8601 :=
  ⟨a.years + b.years, a.months + b.months, a.days + b.days,
    a.hours + b.hours, a.minutes + b.minutes, a.seconds.add b.seconds⟩

/-! ## The duration grammar of the specification

`grammarCore` is the deterministic reading of the optional-component
grammar `P[nY][nM][nD][T[nH][nM][secS]]`: a component is taken exactly
when a nonempty digit run is directly followed by its literal, which is
equivalent to the nondeterministic grammar because a skipped literal can
never be consumed by a later component.  The seconds token test is a
parameter: the claim reads it as `n[.n]`, the code accepts exactly the
strings `float()` accepts. -/

/-- One optional `n` + literal grammar component, maximal munch. -/
def gcomp (lit : Char) (cs : List Char) : List Char :=
  match takeCls isDig cs with
  | ([], _) => cs
  | (_ :: _, []) => cs
  | (_ :: _, c :: rest) => if c = lit then rest else cs

/-- The optional seconds component of the grammar. -/
def gsec (secOk : List Char → Bool) (cs : List Char) : List Char :=
  match takeCls isDigDot cs with
  | (run, c :: rest) => if c = 'S' && secOk run then rest else cs
  | (_, []) => cs

/-- The optional time portion `[T[nH][nM][secS]]` of the grammar plus the
end of input. -/
def tailGrammar (secOk : List Char → Bool) (cs4 : List Char) : Bool :=
  match cs4 with
  | [] => true
  | c4 :: cs5 =>
    if c4 = 'T' then (gsec secOk (gcomp 'M' (gcomp 'H' cs5))).isEmpty
    else false

/-- Acceptance by the composite-duration grammar, seconds test abstracted. -/
def grammarCore (secOk : List Char → Bool) (cs : List Char) : Bool :=
  match cs with
  | [] => false
  | c :: cs1 =>
    if c = 'P' then tailGrammar secOk (gcomp 'D' (gcomp 'M' (gcomp 'Y' cs1)))
    else false

/-- The seconds number exactly as written in the claim: an integer, or an
integer, a dot and a fractional integer (`n` or `n.n`). -/
def strictSecOk (r : List Char) : Bool :=
  match takeCls isDig r with
  | (ip, []) => !ip.isEmpty
  | (ip, '.' :: fp) => !ip.isEmpty && !fp.isEmpty && fp.all isDig
  | _ => false

/-- The grammar `P[nY][nM][nD][T[nH][nM][n.nS]]` as frozen in the claim. -/
def claimGrammar (s : String) : Bool := grammarCore strictSecOk s.data

/-- The grammar the code actually decides: seconds may carry the dot
anywhere `float()` tolerates it, and one trailing newline is accepted by
the `$` anchor. -/
def extGrammar (s : String) : Bool := grammarCore floatOk (stripNl s.data)

/-- Whether an `Except` computation succeeded. -/
def exOk {ε α : Type} : Except ε α → Bool
  | .ok _ => true
  | .error _ => false

/-! ## POSIX path semantics

`os.path.relpath` and `os.path.join` as documented for POSIX, restricted
to normalised relative paths given as component lists (the job and output
directories of this program). -/

/-- Number of leading components two paths share. -/
def commonPrefixLen : List String → List String → ℕ
  | a :: as, b :: bs => if a = b then 1 + commonPrefixLen as bs else 0
  | _, _ => 0

/-- `os.path.relpath(path, start)` on normalised relative component
lists: climb out of the unshared part of `start`, then descend into the
unshared part of `path`. -/
def relpathComponents (path start : List String) : List String :=
  let i := commonPrefixLen path start
  List.replicate (start.length - i) ".." ++ path.drop i

/-- `os.path.relpath` rendered as a string (`"."` for the empty result). -/
def relpathStr (path start : List String) : String :=
  match relpathComponents path start with
  | [] => "."
  | l => String.intercalate "/" l

/-- `os.path.join(a, b)` for POSIX: `b` wins when absolute, otherwise one
separator is inserted unless `a` is empty or already ends in one. -/
def pyJoin (a b : String) : String :=
  if b.data.head? = some '/' then b
  else if a = "" ∨ a.data.getLast? = some '/' then a ++ b
  else a ++ "/" ++ b

/-- The reference rewrite of the merge: prefix the reference with the
relative path from the overall output directory to the job directory. -/
def rewriteRef (sourceDir destDir : List String) (ref : String) : String :=
  pyJoin (relpathStr sourceDir destDir) ref

/-- Whether a reference is an absolute URI: an ASCII letter scheme
terminated by a colon before any slash. -/
def hasUriScheme (s : String) : Bool :=
  (s.data.headD ' ').isAlpha && (s.data.takeWhile (· ≠ '/')).contains ':'

/-! ## XML element trees

The documents handled by `_dash_concat` live entirely in the DASH
namespace `urn:mpeg:dash:schema:mpd:2011`; the `find` / `findall` helpers
qualify every tag with it, so tags are modelled by their local names.
Attributes keep Python dict semantics: updating an existing key keeps its
position, a new key is appended. -/

structure Elem where
  tag : String
  attrib : List (String × String)
  text : Option String
  children : List Elem

/-- Dictionary lookup, `attrib.get(key)`. -/
def getAttr (l : List (String × String)) (k : String) : Option String :=
  match l with
  | [] => none
  | (k2, v) :: rest => if k2 = k then some v else getAttr rest k

/-- Dictionary update, `attrib[key] = value`. -/
def setAttr (l : List (String × String)) (k v : String) :
    List (String × String) :=
  match l with
  | [] => [(k, v)]
  | (k2, v2) :: rest =>
    if k2 = k then (k, v) :: rest else (k2, v2) :: setAttr rest k v

/-- `elem.find(tag)` over the direct children (first match). -/
def findFirstTag (t : String) : List Elem → Option Elem
  | [] => none
  | e :: es => if e.tag = t then some e else findFirstTag t es

/-- `elem.remove(elem.find(tag))`: drop the first child with this tag. -/
def removeFirstTag (t : String) : List Elem → List Elem
  | [] => []
  | e :: es => if e.tag = t then es else e :: removeFirstTag t es

/-- `List.mapM` specialised to `Except`, written out for easy induction. -/
def exMapM {α β : Type} (f : α → Except PyErr β) : List α → Except PyErr (List β)
  | [] => .ok []
  | a :: as =>
    match f a with
    | .error e => .error e
    | .ok b =>
      match exMapM f as with
      | .error e => .error e
      | .ok bs => .ok (b :: bs)

/-! ## The merge algorithm `_dash_concat` -/

/-- The upstream job handles: a `PackagerNode` reduced to its output
directory and the parsed manifest found there; its polled status is the
matching entry of the status list handed to `singlePass`. -/
structure PackagerJob where
  outputDir : List String
  manifest : Elem

/-- The job status enumeration of `node_base.ProcessStatus`. -/
inductive ProcessStatus where
  | Running
  | Finished
  | Errored
  deriving DecidableEq, Repr

/-- The two streaming modes of the pipeline configuration. -/
inductive StreamingMode where
  | VOD
  | LIVE
  deriving DecidableEq, Repr

/-- The read-only pipeline options this node consults. -/
structure PipelineCfg where
  mode : StreamingMode
  dashEnabled : Bool
  hlsEnabled : Bool
  outputDir : List String
  dashOutput : String

/-- One `if segment_template.attrib.get(key):` guarded rewrite: the key
is prefixed when present and nonempty (Python truthiness). -/
def updAttr (relp key : String) (attrs : List (String × String)) :
    List (String × String) :=
  match getAttr attrs key with
  | some s => if s ≠ "" then setAttr attrs key (pyJoin relp s) else attrs
  | none => attrs

/-- Rewrite the `initialization` and `media` attributes of a
`SegmentTemplate`, in source order. -/
def rewriteST (relp : String) (e : Elem) : Elem :=
  { e with attrib := updAttr relp "media" (updAttr relp "initialization" e.attrib) }

/-- Rewrite the text of a `BaseURL`; a missing text fails the assertion
guarding single-segment media. -/
def rewriteBase (relp : String) (e : Elem) : Except PyErr Elem :=
  match e.text with
  | none => .error .assertionError
  | some t => .ok { e with text := some (pyJoin relp t) }

/-- Transformation of one child of a `Representation`: the two `findall`
loops of the source touch exactly the `SegmentTemplate` and `BaseURL`
children. -/
def transformRepChild (relp : String) (e : Elem) : Except PyErr Elem :=
  if e.tag = "SegmentTemplate" then .ok (rewriteST relp e)
  else if e.tag = "BaseURL" then rewriteBase relp e
  else .ok e

/-- Transformation below one `AdaptationSet` child of the period. -/
def transformASChild (relp : String) (e : Elem) : Except PyErr Elem :=
  if e.tag = "Representation" then
    match exMapM (transformRepChild relp) e.children with
    | .error er => .error er
    | .ok cs => .ok { e with children := cs }
  else .ok e

/-- Transformation of one child of the period. -/
def transformPeriodChild (relp : String) (e : Elem) : Except PyErr Elem :=
  if e.tag = "AdaptationSet" then
    match exMapM (transformASChild relp) e.children with
    | .error er => .error er
    | .ok cs => .ok { e with children := cs }
  else .ok e

/-- The reference rewriting pass over one period: both `findall` loops,
path `AdaptationSet/Representation/SegmentTemplate` resp. `BaseURL`. -/
def transformPeriodRefs (relp : String) (p : Elem) : Except PyErr Elem :=
  match exMapM (transformPeriodChild relp) p.children with
  | .error er => .error er
  | .ok cs => .ok { p with children := cs }

/-- The timing branch of the loop body: VOD copies the manifest duration
onto the period and advances the running total, LIVE stamps the running
total as the period start and leaves it unchanged. -/
def timingStep (mode : StreamingMode) (job : PackagerJob) (p : Elem)
    (total : ISO8601) : Except PyErr (Elem × ISO8601) :=
  match mode with
  | .VOD =>
    match getAttr job.manifest.attrib "mediaPresentationDuration" with
    | none => .error .keyError
    | some dur =>
      match ISO8601.parse dur with
      | .error e => .error e
      | .ok d => .ok ({ p with attrib := setAttr p.attrib "duration" dur }, total.add d)
  | .LIVE => .ok ({ p with attrib := setAttr p.attrib "start" total.str }, total)

/-- The `for i, packager_node in enumerate(...)` loop of `_dash_concat`:
index, running total, and the collected transformed periods. -/
def concatLoop (cfg : PipelineCfg) : ℕ → ISO8601 → List PackagerJob →
    Except PyErr (ISO8601 × List Elem)
  | _, total, [] => .ok (total, [])
  | i, total, job :: rest =>
    match findFirstTag "Period" job.manifest.children with
    | none => .error .assertionError
    | some period =>
      let p1 := { period with attrib := setAttr period.attrib "id" (decRepr i) }
      match timingStep cfg.mode job p1 total with
      | .error e => .error e
      | .ok (p2, total2) =>
        match transformPeriodRefs (relpathStr job.outputDir cfg.outputDir) p2 with
        | .error e => .error e
        | .ok p3 =>
          match concatLoop cfg (i + 1) total2 rest with
          | .error e => .error e
          | .ok (total3, ps) => .ok (total3, p3 :: ps)

/-- `_dash_concat`: build the merged MPD and the path it is written to.
Serialisation to text (XML declaration plus the two attribution comments)
carries no claim content and is left abstract: the write is the pair of
the destination path and the merged root. -/
def dashConcat (cfg : PipelineCfg) (jobs : List PackagerJob) :
    Except PyErr (List String × Elem) :=
  match jobs with
  | [] => .error .indexError
  | j0 :: _ =>
    match findFirstTag "Period" j0.manifest.children with
    | none => .error .assertionError
    | some _ =>
      let refRoot :=
        { j0.manifest with children := removeFirstTag "Period" j0.manifest.children }
      match concatLoop cfg 0 ISO8601.default0 jobs with
      | .error e => .error e
      | .ok (total, ps) =>
        let merged0 := { refRoot with children := refRoot.children ++ ps }
        let merged :=
          match cfg.mode with
          | .VOD =>
            { merged0 with
              attrib := setAttr merged0.attrib "mediaPresentationDuration" total.str }
          | .LIVE => merged0
        .ok (cfg.outputDir ++ [cfg.dashOutput], merged)

/-! ## The watcher tick `_thread_single_pass` -/

/-- Outcome of scanning the packager statuses in index order: the loop
returns early on the first `Running` node and raises on the first
`Errored` node it reaches. -/
inductive Scan where
  | allFinished
  | sawRunning
  | sawErrored (i : ℕ)
  deriving DecidableEq, Repr

def scanStatuses : ℕ → List ProcessStatus → Scan
  | _, [] => .allFinished
  | _, .Running :: _ => .sawRunning
  | i, .Errored :: _ => .sawErrored i
  | i, .Finished :: rest => scanStatuses (i + 1) rest

/-- Result of one watcher tick: skip, the `RuntimeError` naming the failed
job, a propagated merge exception, or completion with the files written.
The HLS stub writes nothing. -/
inductive PassResult where
  | wait
  | errored (i : ℕ)
  | mergeFailed (e : PyErr)
  | finished (writes : List (List String × Elem))

/-- `_thread_single_pass` over the packager statuses. -/
def singlePass (cfg : PipelineCfg) (statuses : List ProcessStatus)
    (jobs : List PackagerJob) : PassResult :=
  match scanStatuses 0 statuses with
  | .sawRunning => .wait
  | .sawErrored i => .errored i
  | .allFinished =>
    if cfg.dashEnabled then
      match dashConcat cfg jobs with
      | .error e => .mergeFailed e
      | .ok w => .finished [w]
    else .finished []

/-- The files a tick outcome wrote. -/
def writesOf : PassResult → List (List String × Elem)
  | .finished w => w
  | _ => []

/-! ## Equivalence of `parse` and the grammar -/

theorem gcomp_stuck (lit c : Char) (cs : List Char) (h : isDig c = false) :
    gcomp lit (c :: cs) = c :: cs := by
  simp [gcomp, takeCls_nonhead _ _ _ h]

theorem gsec_stuck (secOk : List Char → Bool) (c : Char) (cs : List Char)
    (h : isDigDot c = false) (h2 : secOk [] = false) :
    gsec secOk (c :: cs) = c :: cs := by
  simp [gsec, takeCls_nonhead _ _ _ h, h2]

/-- Relation between a matcher component and the corresponding grammar
component: either they agree on the rest of the input and the group is
not the empty string, or the matcher captured an empty group by consuming
a bare literal the grammar refuses. -/
theorem mcomp_gcomp (lit : Char) (cs : List Char) :
    (∃ run rest, mcomp lit cs = (some run, rest) ∧ run ≠ [] ∧ gcomp lit cs = rest) ∨
      (mcomp lit cs = (none, cs) ∧ gcomp lit cs = cs) ∨
      (∃ rest, mcomp lit cs = (some [], rest) ∧ cs = lit :: rest ∧ gcomp lit cs = cs) := by
  have happ := takeCls_append isDig cs
  rcases h : takeCls isDig cs with ⟨run, rest2⟩
  rw [h] at happ
  cases run with
  | nil =>
    cases rest2 with
    | nil => right; left; constructor <;> simp [mcomp, gcomp, h]
    | cons c rest =>
      by_cases hcl : c = lit
      · subst hcl
        right; right
        exact ⟨rest, by simp [mcomp, h], by simpa using happ.symm, by simp [gcomp, h]⟩
      · right; left
        constructor <;> simp [mcomp, gcomp, h, hcl]
  | cons a run2 =>
    cases rest2 with
    | nil => right; left; constructor <;> simp [mcomp, gcomp, h]
    | cons c rest =>
      by_cases hcl : c = lit
      · subst hcl
        left
        exact ⟨a :: run2, rest, by simp [mcomp, h], by simp, by simp [gcomp, h]⟩
      · right; left
        constructor <;> simp [mcomp, gcomp, h, hcl]

/-- Relation between the seconds component of the matcher and of the
grammar: agreement with a `float()`-acceptable group, agreement with no
group, or a captured group `float()` rejects on an input the grammar
leaves unconsumed (and nonempty). -/
theorem msec_gsec (cs : List Char) :
    (∃ run rest, msec cs = (some run, rest) ∧ floatOk run = true ∧
        gsec floatOk cs = rest) ∨
      (msec cs = (none, cs) ∧ gsec floatOk cs = cs) ∨
      (∃ run rest, msec cs = (some run, rest) ∧ floatOk run = false ∧
        gsec floatOk cs = cs ∧ cs ≠ []) := by
  have happ := takeCls_append isDigDot cs
  rcases h : takeCls isDigDot cs with ⟨run, rest2⟩
  rw [h] at happ
  cases rest2 with
  | nil => right; left; constructor <;> simp [msec, gsec, h]
  | cons c rest =>
    by_cases hcl : c = 'S'
    · subst hcl
      by_cases hok : floatOk run = true
      · left
        exact ⟨run, rest, by simp [msec, h], hok, by simp [gsec, h, hok]⟩
      · right; right
        refine ⟨run, rest, by simp [msec, h], by simpa using hok, ?_, ?_⟩
        · simp [gsec, h, Bool.eq_false_iff.mpr hok]
        · intro hnil
          rw [hnil] at happ
          exact absurd happ.symm (by simp)
    · right; left
      constructor <;> simp [msec, gsec, h, hcl]

theorem pyInt_ne_none (o : Option (List Char)) (h : o ≠ some []) :
    ∃ n, pyInt o = some n := by
  match o with
  | none => exact ⟨0, rfl⟩
  | some [] => exact absurd rfl h
  | some (c :: cs) => exact ⟨pyIntVal (c :: cs), rfl⟩

/-- `parseGroups` succeeds exactly when no integer group captured the
empty string and the seconds group, if captured, is `float()`-acceptable. -/
theorem parseGroups_ok_iff (g : Groups) :
    exOk (parseGroups g) = true ↔
      g.gy ≠ some [] ∧ g.gmo ≠ some [] ∧ g.gd ≠ some [] ∧ g.gh ≠ some [] ∧
        g.gmi ≠ some [] ∧ ∀ r, g.gs = some r → floatOk r = true := by
  have pyInt_some : ∀ (o : Option (List Char)) (n : ℕ), pyInt o = some n →
      o ≠ some [] := by
    intro o n hsome he
    rw [he] at hsome
    simp [pyInt] at hsome
  have pyFloat_some : ∀ (o : Option (List Char)) (f : PyFloat),
      pyFloatGroup o = some f → ∀ r, o = some r → floatOk r = true := by
    intro o f hsome r hr
    rw [hr] at hsome
    by_contra hbad
    rw [Bool.not_eq_true] at hbad
    simp [pyFloatGroup, hbad] at hsome
  constructor
  · intro hok
    unfold parseGroups at hok
    rcases hy : pyInt g.gy with _ | y <;> rw [hy] at hok
    · simp [exOk] at hok
    rcases hmo : pyInt g.gmo with _ | mo <;> rw [hmo] at hok
    · simp [exOk] at hok
    rcases hd : pyInt g.gd with _ | d <;> rw [hd] at hok
    · simp [exOk] at hok
    rcases hh : pyInt g.gh with _ | h <;> rw [hh] at hok
    · simp [exOk] at hok
    rcases hmi : pyInt g.gmi with _ | mi <;> rw [hmi] at hok
    · simp [exOk] at hok
    rcases hs : pyFloatGroup g.gs with _ | f <;> rw [hs] at hok
    · simp [exOk] at hok
    exact ⟨pyInt_some _ _ hy, pyInt_some _ _ hmo, pyInt_some _ _ hd,
      pyInt_some _ _ hh, pyInt_some _ _ hmi, pyFloat_some _ _ hs⟩
  · rintro ⟨hy, hmo, hd, hh, hmi, hs⟩
    unfold parseGroups
    rcases pyInt_ne_none g.gy hy with ⟨y, h1⟩
    rcases pyInt_ne_none g.gmo hmo with ⟨mo, h2⟩
    rcases pyInt_ne_none g.gd hd with ⟨d, h3⟩
    rcases pyInt_ne_none g.gh hh with ⟨h, h4⟩
    rcases pyInt_ne_none g.gmi hmi with ⟨mi, h5⟩
    rw [h1, h2, h3, h4, h5]
    rcases hgs : g.gs with _ | r
    · simp [pyFloatGroup, exOk]
    · simp [pyFloatGroup, hs r hgs, exOk]

/-- Merged view of a matcher component: either the grammar consumes the
same input and the group is not empty, or the matcher captured the empty
group in front of a bare literal. -/
theorem mcomp_good (lit : Char) (cs : List Char) :
    ((mcomp lit cs).1 ≠ some [] ∧ gcomp lit cs = (mcomp lit cs).2) ∨
      (∃ rest, mcomp lit cs = (some [], rest) ∧ cs = lit :: rest ∧
        gcomp lit cs = cs) := by
  rcases mcomp_gcomp lit cs with ⟨run, rest, hm, hne, hg⟩ | ⟨hm, hg⟩ | ⟨rest, hm, heq, hg⟩
  · left; rw [hm]; exact ⟨by simp [hne], hg⟩
  · left; rw [hm]; exact ⟨by simp, hg⟩
  · right; exact ⟨rest, hm, heq, hg⟩

/-- A match whose early groups captured an empty string can never parse. -/
theorem tail_bad (gy gmo gd : Option (List Char)) (cs4 : List Char)
    (hbad : gy = some [] ∨ gmo = some [] ∨ gd = some []) :
    exOk (match tailMatch gy gmo gd cs4 with
          | none => (Except.error PyErr.assertionError : Except PyErr ISO8601)
          | some g => parseGroups g) = false := by
  have hfail : ∀ g : Groups, g.gy = gy → g.gmo = gmo → g.gd = gd →
      exOk (parseGroups g) = false := by
    intro g h1 h2 h3
    rw [Bool.eq_false_iff]
    intro hok
    rcases (parseGroups_ok_iff g).mp hok with ⟨a1, a2, a3, -, -, -⟩
    rcases hbad with hb | hb | hb
    exacts [a1 (h1.trans hb), a2 (h2.trans hb), a3 (h3.trans hb)]
  cases cs4 with
  | nil => exact hfail ⟨gy, gmo, gd, none, none, none⟩ rfl rfl rfl
  | cons c4 cs5 =>
    by_cases hT : c4 = 'T'
    · subst hT
      simp only [tailMatch, if_pos]
      by_cases hend : (msec (mcomp 'M' (mcomp 'H' cs5).2).2).2 = []
      · rw [if_pos hend]
        exact hfail _ rfl rfl rfl
      · rw [if_neg hend]; rfl
    · simp [tailMatch, hT, exOk]

/-- With healthy date groups, the time-portion matcher succeeds exactly
when the time-portion grammar accepts the rest of the input. -/
theorem tail_ok_iff (gy gmo gd : Option (List Char)) (cs4 : List Char)
    (hy : gy ≠ some []) (hmo : gmo ≠ some []) (hd : gd ≠ some []) :
    exOk (match tailMatch gy gmo gd cs4 with
          | none => (Except.error PyErr.assertionError : Except PyErr ISO8601)
          | some g => parseGroups g) = tailGrammar floatOk cs4 := by
  cases cs4 with
  | nil =>
    simp only [tailMatch, tailGrammar]
    exact (parseGroups_ok_iff _).mpr ⟨hy, hmo, hd, by simp, by simp, by simp⟩
  | cons c4 cs5 =>
    by_cases hT : c4 = 'T'
    case neg => simp [tailMatch, tailGrammar, hT, exOk]
    subst hT
    simp only [tailMatch, tailGrammar, if_pos]
    rcases mcomp_good 'H' cs5 with ⟨hneH, hgH⟩ | ⟨restH, hmH, heqH, hgH⟩
    · rw [hgH]
      rcases mcomp_good 'M' (mcomp 'H' cs5).2 with ⟨hneM, hgM⟩ | ⟨restM, hmM, heqM, hgM⟩
      · rw [hgM]
        rcases msec_gsec (mcomp 'M' (mcomp 'H' cs5).2).2 with
          ⟨run, rest, hms, hfok, hgs⟩ | ⟨hms, hgs⟩ | ⟨run, rest, hms, hfok, hgs, hne⟩
        · rw [hms, hgs]
          by_cases hrest : rest = []
          · subst hrest
            rw [if_pos rfl]
            have hok : exOk (parseGroups ⟨gy, gmo, gd, (mcomp 'H' cs5).1,
                (mcomp 'M' (mcomp 'H' cs5).2).1, some run⟩) = true :=
              (parseGroups_ok_iff _).mpr ⟨hy, hmo, hd, hneH, hneM, by
                intro r hr
                cases hr
                exact hfok⟩
            exact hok.trans rfl
          · rw [if_neg hrest]
            cases rest with
            | nil => exact absurd rfl hrest
            | cons a as => rfl
        · rw [hms, hgs]
          by_cases hrest : (mcomp 'M' (mcomp 'H' cs5).2).2 = []
          · rw [if_pos hrest, hrest]
            have hok : exOk (parseGroups ⟨gy, gmo, gd, (mcomp 'H' cs5).1,
                (mcomp 'M' (mcomp 'H' cs5).2).1, none⟩) = true :=
              (parseGroups_ok_iff _).mpr ⟨hy, hmo, hd, hneH, hneM, by simp⟩
            exact hok.trans rfl
          · rw [if_neg hrest]
            cases h2 : (mcomp 'M' (mcomp 'H' cs5).2).2 with
            | nil => exact absurd h2 hrest
            | cons a as => rfl
        · rw [hms, hgs]
          have hrhs : ((mcomp 'M' (mcomp 'H' cs5).2).2).isEmpty = false := by
            cases h2 : (mcomp 'M' (mcomp 'H' cs5).2).2 with
            | nil => exact absurd h2 hne
            | cons a as => rfl
          rw [hrhs]
          by_cases hend : rest = []
          · rw [if_pos hend]
            rw [Bool.eq_false_iff]
            intro hok
            rcases (parseGroups_ok_iff _).mp hok with ⟨-, -, -, -, -, a6⟩
            rw [a6 run rfl] at hfok
            exact absurd hfok (by decide)
          · rw [if_neg hend]; rfl
      · rw [hmM, hgM, heqM, gsec_stuck floatOk 'M' _ (by decide) (by decide)]
        have hrhs : (('M' :: restM : List Char)).isEmpty = false := rfl
        rw [hrhs]
        by_cases hend : (msec restM).2 = []
        · rw [if_pos hend]
          rw [Bool.eq_false_iff]
          intro hok
          rcases (parseGroups_ok_iff _).mp hok with ⟨-, -, -, -, a5, -⟩
          exact a5 rfl
        · rw [if_neg hend]; rfl
    · rw [hmH, hgH, heqH, gcomp_stuck 'M' 'H' _ (by decide),
        gsec_stuck floatOk 'H' _ (by decide) (by decide)]
      have hrhs : (('H' :: restH : List Char)).isEmpty = false := rfl
      rw [hrhs]
      by_cases hend : (msec (mcomp 'M' restH).2).2 = []
      · rw [if_pos hend]
        rw [Bool.eq_false_iff]
        intro hok
        rcases (parseGroups_ok_iff _).mp hok with ⟨-, -, -, a4, -, -⟩
        exact a4 rfl
      · rw [if_neg hend]; rfl

/-- `ISO8601.parse` succeeds exactly on the strings the (extended,
`float()`-seconds) grammar accepts: core version on character lists. -/
theorem parseAt_ok_iff (cs : List Char) :
    exOk (parseAt cs) = grammarCore floatOk cs := by
  cases cs with
  | nil => rfl
  | cons c cs1 =>
    by_cases hP : c = 'P'
    case neg => simp [parseAt, pyMatchCore, grammarCore, hP, exOk]
    subst hP
    simp only [parseAt, pyMatchCore, grammarCore, if_pos]
    rcases mcomp_good 'Y' cs1 with ⟨hneY, hgY⟩ | ⟨restY, hmY, heqY, hgY⟩
    · rw [hgY]
      rcases mcomp_good 'M' (mcomp 'Y' cs1).2 with ⟨hneM, hgM⟩ | ⟨restM, hmM, heqM, hgM⟩
      · rw [hgM]
        rcases mcomp_good 'D' (mcomp 'M' (mcomp 'Y' cs1).2).2 with
          ⟨hneD, hgD⟩ | ⟨restD, hmD, heqD, hgD⟩
        · rw [hgD]
          exact tail_ok_iff _ _ _ _ hneY hneM hneD
        · rw [hmD, hgD, heqD]
          have hrhs : tailGrammar floatOk ('D' :: restD) = false := rfl
          rw [hrhs]
          exact tail_bad _ _ _ _ (Or.inr (Or.inr rfl))
      · rw [hmM, hgM, heqM, gcomp_stuck 'D' 'M' _ (by decide)]
        have hrhs : tailGrammar floatOk ('M' :: restM) = false := rfl
        rw [hrhs]
        exact tail_bad _ _ _ _ (Or.inr (Or.inl rfl))
    · rw [hmY, hgY, heqY, gcomp_stuck 'M' 'Y' _ (by decide),
        gcomp_stuck 'D' 'Y' _ (by decide)]
      have hrhs : tailGrammar floatOk ('Y' :: restY) = false := rfl
      rw [hrhs]
      exact tail_bad _ _ _ _ (Or.inl rfl)

/-- `ISO8601.parse` succeeds exactly on the strings the extended grammar
accepts. -/
theorem parse_ok_iff_ext (s : String) : exOk (ISO8601.parse s) = extGrammar s :=
  parseAt_ok_iff (stripNl s.data)

/-- A successful `parseGroups` stores `float()` of the seconds group. -/
theorem parseGroups_seconds (g : Groups) (v : ISO8601) (h : parseGroups g = .ok v) :
    ∃ f, pyFloatGroup g.gs = some f ∧ v.seconds = .pfloat f := by
  unfold parseGroups at h
  rcases hy : pyInt g.gy with _ | y <;> rw [hy] at h
  · exact absurd h (by simp)
  rcases hmo : pyInt g.gmo with _ | mo <;> rw [hmo] at h
  · exact absurd h (by simp)
  rcases hd : pyInt g.gd with _ | d <;> rw [hd] at h
  · exact absurd h (by simp)
  rcases hh : pyInt g.gh with _ | h2 <;> rw [hh] at h
  · exact absurd h (by simp)
  rcases hmi : pyInt g.gmi with _ | mi <;> rw [hmi] at h
  · exact absurd h (by simp)
  rcases hs : pyFloatGroup g.gs with _ | f <;> rw [hs] at h
  · exact absurd h (by simp)
  refine ⟨f, rfl, ?_⟩
  simp only [Except.ok.injEq] at h
  rw [← h]

/-- A captured seconds group means the matcher consumed an `S`. -/
theorem msec_some (cs r : List Char) (h : (msec cs).1 = some r) : 'S' ∈ cs := by
  have happ := takeCls_append isDigDot cs
  unfold msec at h
  rcases h2 : takeCls isDigDot cs with ⟨run, rest2⟩
  rw [h2] at h happ
  cases rest2 with
  | nil => simp at h
  | cons c rest3 =>
    by_cases hc : c = 'S'
    · subst hc
      rw [← happ]
      exact List.mem_append_right _ (List.mem_cons_self _ _)
    · simp [hc] at h

/-- The rest left by a matcher component is part of its input. -/
theorem mcomp_rest_mem (lit : Char) (cs : List Char) :
    ∀ x ∈ (mcomp lit cs).2, x ∈ cs := by
  have happ := takeCls_append isDig cs
  unfold mcomp
  rcases h2 : takeCls isDig cs with ⟨run, rest2⟩
  rw [h2] at happ
  cases rest2 with
  | nil => intro x hx; exact hx
  | cons c rest =>
    by_cases hc : c = lit
    · subst hc
      simp only [if_pos]
      intro x hx
      rw [← happ]
      exact List.mem_append_right _ (List.mem_cons_of_mem _ hx)
    · simp only [if_neg hc]
      intro x hx
      exact hx

/-- A captured seconds group in the time portion means an `S` was in it. -/
theorem tailMatch_gs (gy gmo gd : Option (List Char)) (cs4 : List Char)
    (g : Groups) (r : List Char) (h : tailMatch gy gmo gd cs4 = some g)
    (hgs : g.gs = some r) : 'S' ∈ cs4 := by
  cases cs4 with
  | nil =>
    have heq : tailMatch gy gmo gd [] = some ⟨gy, gmo, gd, none, none, none⟩ := rfl
    rw [heq] at h
    simp only [Option.some.injEq] at h
    rw [← h] at hgs
    simp at hgs
  | cons c4 cs5 =>
    by_cases hT : c4 = 'T'
    · subst hT
      have heq : tailMatch gy gmo gd ('T' :: cs5)
          = if (msec (mcomp 'M' (mcomp 'H' cs5).2).2).2 = []
            then some ⟨gy, gmo, gd, (mcomp 'H' cs5).1,
              (mcomp 'M' (mcomp 'H' cs5).2).1,
              (msec (mcomp 'M' (mcomp 'H' cs5).2).2).1⟩
            else none := rfl
      rw [heq] at h
      by_cases hend : (msec (mcomp 'M' (mcomp 'H' cs5).2).2).2 = []
      · rw [if_pos hend] at h
        simp only [Option.some.injEq] at h
        rw [← h] at hgs
        have hmem : 'S' ∈ (mcomp 'M' (mcomp 'H' cs5).2).2 :=
          msec_some _ _ hgs
        have hmem2 : 'S' ∈ (mcomp 'H' cs5).2 := mcomp_rest_mem _ _ _ hmem
        have hmem3 : 'S' ∈ cs5 := mcomp_rest_mem _ _ _ hmem2
        exact List.mem_cons_of_mem _ hmem3
      · rw [if_neg hend] at h
        exact absurd h (by simp)
    · simp [tailMatch, hT] at h

/-- A captured seconds group means the input contained an `S`. -/
theorem pyMatchCore_gs (cs : List Char) (g : Groups) (r : List Char)
    (h : pyMatchCore cs = some g) (hgs : g.gs = some r) : 'S' ∈ cs := by
  cases cs with
  | nil => exact absurd h (by simp [pyMatchCore])
  | cons c cs1 =>
    by_cases hP : c = 'P'
    · subst hP
      have heq : pyMatchCore ('P' :: cs1)
          = tailMatch (mcomp 'Y' cs1).1 (mcomp 'M' (mcomp 'Y' cs1).2).1
            (mcomp 'D' (mcomp 'M' (mcomp 'Y' cs1).2).2).1
            (mcomp 'D' (mcomp 'M' (mcomp 'Y' cs1).2).2).2 := rfl
      rw [heq] at h
      have hmem : 'S' ∈ (mcomp 'D' (mcomp 'M' (mcomp 'Y' cs1).2).2).2 :=
        tailMatch_gs _ _ _ _ _ _ h hgs
      have hmem2 := mcomp_rest_mem 'D' _ _ hmem
      have hmem3 := mcomp_rest_mem 'M' _ _ hmem2
      have hmem4 := mcomp_rest_mem 'Y' _ _ hmem3
      exact List.mem_cons_of_mem _ hmem4
    · simp [pyMatchCore, hP] at h

theorem stripNl_mem (cs : List Char) (x : Char) (h : x ∈ stripNl cs) : x ∈ cs := by
  unfold stripNl at h
  by_cases h2 : cs.getLast? = some '\n'
  · rw [if_pos h2] at h
    exact (List.dropLast_sublist cs).subset h
  · rw [if_neg h2] at h
    exact h

/-- A parse of a string with no `S` (no seconds sub-part, in particular
no time portion) stores the float zero in the seconds field. -/
theorem parse_seconds_default (s : String) (v : ISO8601)
    (h : ISO8601.parse s = .ok v) (hS : 'S' ∉ s.data) :
    v.seconds = PyNum.pfloat ⟨0, 0⟩ := by
  unfold ISO8601.parse parseAt at h
  rcases hm : pyMatchCore (stripNl s.data) with _ | g <;> rw [hm] at h
  · exact absurd h (by simp)
  rcases parseGroups_seconds g v h with ⟨f, hf, hsec⟩
  rcases hgs : g.gs with _ | r
  · rw [hgs] at hf
    simp only [pyFloatGroup, Option.some.injEq] at hf
    rw [hsec, ← hf]
  · exact absurd (stripNl_mem _ _ (pyMatchCore_gs _ _ _ hm hgs)) hS

/-! ## Round trip of canonical duration strings -/

theorem takeCls_exact (p : Char → Bool) (l : List Char) (c : Char)
    (r : List Char) (hl : ∀ x ∈ l, p x = true) (hc : p c = false) :
    takeCls p (l ++ c :: r) = (l, c :: r) := by
  induction l with
  | nil => exact takeCls_nonhead p c r hc
  | cons a l ih =>
    have ha : p a = true := hl a (List.mem_cons_self a l)
    have ih2 := ih fun x hx => hl x (List.mem_cons_of_mem a hx)
    simp [takeCls, ha, ih2]

theorem mcomp_exact (lit : Char) (dl rest : List Char)
    (hall : ∀ c ∈ dl, isDig c = true) (hlit : isDig lit = false) :
    mcomp lit (dl ++ lit :: rest) = (some dl, rest) := by
  unfold mcomp
  rw [takeCls_exact isDig dl lit rest hall hlit]
  simp

theorem msec_exact (ds : List Char) (h : ∀ c ∈ ds, isDig c = true) :
    msec (ds ++ ['.', '0', 'S']) = (some (ds ++ ['.', '0']), []) := by
  have hsplit : ds ++ ['.', '0', 'S'] = (ds ++ ['.', '0']) ++ 'S' :: [] := by simp
  rw [hsplit]
  unfold msec
  rw [takeCls_exact isDigDot (ds ++ ['.', '0']) 'S' [] ?_ (by decide)]
  · simp
  · intro c hc
    rcases List.mem_append.mp hc with hc | hc
    · simp [isDigDot, h c hc]
    · have : c = '.' ∨ c = '0' := by simpa using hc
      rcases this with rfl | rfl <;> decide

theorem pyMatchCore_canonical (dy dmo dd dh dmi ds : List Char)
    (h1 : ∀ c ∈ dy, isDig c = true) (h2 : ∀ c ∈ dmo, isDig c = true)
    (h3 : ∀ c ∈ dd, isDig c = true) (h4 : ∀ c ∈ dh, isDig c = true)
    (h5 : ∀ c ∈ dmi, isDig c = true) (h6 : ∀ c ∈ ds, isDig c = true) :
    pyMatchCore ('P' :: (dy ++ 'Y' :: (dmo ++ 'M' :: (dd ++ 'D' :: 'T' ::
        (dh ++ 'H' :: (dmi ++ 'M' :: (ds ++ ['.', '0', 'S'])))))))
      = some ⟨some dy, some dmo, some dd, some dh, some dmi,
          some (ds ++ ['.', '0'])⟩ := by
  simp only [pyMatchCore, if_pos]
  rw [mcomp_exact 'Y' dy _ h1 (by decide)]
  simp only
  rw [mcomp_exact 'M' dmo _ h2 (by decide)]
  simp only
  rw [mcomp_exact 'D' dd _ h3 (by decide)]
  simp only [tailMatch, if_pos]
  rw [mcomp_exact 'H' dh _ h4 (by decide)]
  simp only
  rw [mcomp_exact 'M' dmi _ h5 (by decide)]
  simp only
  rw [msec_exact ds h6]
  simp

theorem pyInt_nonempty (l : List Char) (h : l ≠ []) :
    pyInt (some l) = some (pyIntVal l) := by
  cases l with
  | nil => exact absurd rfl h
  | cons c cs => rfl

theorem floatOk_dot_zero (ds : List Char) (h : ∀ c ∈ ds, isDig c = true) :
    floatOk (ds ++ ['.', '0']) = true := by
  have hfilter : ds.filter (· == '.') = [] := by
    rw [List.filter_eq_nil_iff]
    intro a ha
    have := h a ha
    simp only [beq_iff_eq]
    intro he
    rw [he] at this
    exact absurd this (by decide)
  have hall : ds.all isDigDot = true := by
    rw [List.all_eq_true]
    intro a ha
    simp [isDigDot, h a ha]
  unfold floatOk
  rw [List.all_append, List.any_append, List.filter_append _ _, hfilter, hall]
  have h1 : (['.', '0'] : List Char).all isDigDot = true := by decide
  have h2 : (['.', '0'] : List Char).any isDig = true := by decide
  have h3 : (['.', '0'] : List Char).filter (· == '.') = ['.'] := by decide
  have h4 : (ds ++ ['.', '0']).isEmpty = false := by cases ds <;> rfl
  rw [h1, h2, h3, h4]
  simp

theorem floatVal_dot_zero (ds : List Char) (h : ∀ c ∈ ds, isDig c = true) :
    floatVal (ds ++ ['.', '0']) = ⟨pyIntVal ds * 10, 1⟩ := by
  unfold floatVal
  rw [takeCls_exact isDig ds '.' ['0'] h (by decide)]
  have hz : pyIntVal ['0'] = 0 := rfl
  simp [hz]

theorem pyFloatGroup_dot_zero (ds : List Char) (h : ∀ c ∈ ds, isDig c = true) :
    pyFloatGroup (some (ds ++ ['.', '0'])) = some ⟨pyIntVal ds * 10, 1⟩ := by
  simp only [pyFloatGroup]
  rw [floatOk_dot_zero ds h, if_pos rfl, floatVal_dot_zero ds h]

/-- The canonical all-components rendering of a duration whose seconds
value is shown in the float form `s.0`. -/
def canonicalRender (y mo d h mi s : ℕ) : String :=
  "P" ++ decRepr y ++ "Y" ++ decRepr mo ++ "M" ++ decRepr d ++ "DT" ++
    decRepr h ++ "H" ++ decRepr mi ++ "M" ++ decRepr s ++ ".0S"

theorem canonicalRender_data (y mo d h mi s : ℕ) :
    (canonicalRender y mo d h mi s).data
      = 'P' :: ((decRepr y).data ++ 'Y' :: ((decRepr mo).data ++ 'M' ::
        ((decRepr d).data ++ 'D' :: 'T' :: ((decRepr h).data ++ 'H' ::
        ((decRepr mi).data ++ 'M' :: ((decRepr s).data ++ ['.', '0', 'S'])))))) := by
  have hP : ("P" : String).data = ['P'] := rfl
  have hY : ("Y" : String).data = ['Y'] := rfl
  have hM : ("M" : String).data = ['M'] := rfl
  have hDT : ("DT" : String).data = ['D', 'T'] := rfl
  have hH : ("H" : String).data = ['H'] := rfl
  have hS : (".0S" : String).data = ['.', '0', 'S'] := rfl
  simp [canonicalRender, String.data_append, hP, hY, hM, hDT, hH, hS]

theorem stripNl_canonical (y mo d h mi s : ℕ) :
    stripNl (canonicalRender y mo d h mi s).data
      = (canonicalRender y mo d h mi s).data := by
  have hlast : (canonicalRender y mo d h mi s).data.getLast? = some 'S' := by
    rw [canonicalRender_data]
    have : 'P' :: ((decRepr y).data ++ 'Y' :: ((decRepr mo).data ++ 'M' ::
        ((decRepr d).data ++ 'D' :: 'T' :: ((decRepr h).data ++ 'H' ::
        ((decRepr mi).data ++ 'M' :: ((decRepr s).data ++ ['.', '0', 'S']))))))
        = ('P' :: ((decRepr y).data ++ 'Y' :: ((decRepr mo).data ++ 'M' ::
        ((decRepr d).data ++ 'D' :: 'T' :: ((decRepr h).data ++ 'H' ::
        ((decRepr mi).data ++ 'M' :: ((decRepr s).data ++ ['.', '0']))))))) ++ ['S'] := by
      simp
    rw [this, List.getLast?_concat]
  unfold stripNl
  rw [hlast]
  simp

/-- `parse` on the canonical rendering recovers the six components, the
seconds as the float `s.0` (stored exactly as `10 s / 10`). -/
theorem parse_canonical (y mo d h mi s : ℕ) :
    ISO8601.parse (canonicalRender y mo d h mi s)
      = .ok ⟨y, mo, d, h, mi, .pfloat ⟨pyIntVal (decRepr s).data * 10, 1⟩⟩ := by
  obtain ⟨hyne, hyall, hyval⟩ := decRepr_spec y
  obtain ⟨hmone, hmoall, hmoval⟩ := decRepr_spec mo
  obtain ⟨hdne, hdall, hdval⟩ := decRepr_spec d
  obtain ⟨hhne, hhall, hhval⟩ := decRepr_spec h
  obtain ⟨hmine, hmiall, hmival⟩ := decRepr_spec mi
  obtain ⟨hsne, hsall, hsval⟩ := decRepr_spec s
  unfold ISO8601.parse
  rw [stripNl_canonical, canonicalRender_data]
  unfold parseAt
  rw [pyMatchCore_canonical _ _ _ _ _ _ hyall hmoall hdall hhall hmiall hsall]
  unfold parseGroups
  simp only
  rw [pyInt_nonempty _ hyne, pyInt_nonempty _ hmone, pyInt_nonempty _ hdne,
    pyInt_nonempty _ hhne, pyInt_nonempty _ hmine,
    pyFloatGroup_dot_zero _ hsall]
  rw [hyval, hmoval, hdval, hhval, hmival]

/-- Formatting the parse result of a canonical rendering gives the very
same string.  The bound keeps the seconds value inside the positional
repr regime (a whole number of seconds below `10 ^ 16` has at most
sixteen significant digits). -/
theorem str_canonical (y mo d h mi s : ℕ) (hs : s < 10 ^ 16) :
    ISO8601.str ⟨y, mo, d, h, mi, .pfloat ⟨s * 10, 1⟩⟩
      = canonicalRender y mo d h mi s := by
  have hnorm : normFloat (s * 10) 1 = (s, 0) := by
    unfold normFloat
    rw [if_pos (Nat.mul_mod_left s 10)]
    rw [Nat.mul_div_cancel s (by norm_num : (0:ℕ) < 10)]
    rfl
  have hrepr : pyFloatRepr ⟨s * 10, 1⟩ = decRepr s ++ "." ++ "0" := by
    by_cases h0 : s = 0
    · subst h0
      rfl
    · have hnum : s * 10 ≠ 0 := by omega
      have hlen1 : 1 ≤ (decAux (s * 10) (s * 10)).length := by
        have hne := decAux_ne_nil (s * 10) (s * 10) (by omega) (by omega)
        cases hL : decAux (s * 10) (s * 10) with
        | nil => exact absurd hL hne
        | cons a l => simp
      have hlen17 : (decAux (s * 10) (s * 10)).length ≤ 17 := by
        apply decAux_length_le
        calc s * 10 < 10 ^ 16 * 10 := by omega
        _ = 10 ^ 17 := by ring
      have hc1 : -4 < decPos ⟨s * 10, 1⟩ := by
        unfold decPos
        simp only
        omega
      have hc2 : decPos ⟨s * 10, 1⟩ ≤ 16 := by
        unfold decPos
        simp only
        omega
      simp [pyFloatRepr, hnum, hc1, hc2, hnorm]
  have hp : pyNumStr (PyNum.pfloat ⟨s * 10, 1⟩) = decRepr s ++ "." ++ "0" := by
    simp only [pyNumStr]
    exact hrepr
  show "P" ++ decRepr y ++ "Y" ++ decRepr mo ++ "M" ++ decRepr d ++ "DT" ++
      decRepr h ++ "H" ++ decRepr mi ++ "M" ++
      pyNumStr (PyNum.pfloat ⟨s * 10, 1⟩) ++ "S"
    = canonicalRender y mo d h mi s
  rw [hp]
  unfold canonicalRender
  have hdot : ("." ++ ("0" ++ "S") : String) = ".0S" := rfl
  simp only [String.append_assoc]
  rw [hdot]

/-! ## Dictionary and tree lemmas -/

theorem getAttr_setAttr_self (l : List (String × String)) (k v : String) :
    getAttr (setAttr l k v) k = some v := by
  induction l with
  | nil => simp [setAttr, getAttr]
  | cons kv rest ih =>
    rcases kv with ⟨k2, v2⟩
    by_cases h : k2 = k
    · simp [setAttr, getAttr, h]
    · simp [setAttr, getAttr, h, ih]

theorem getAttr_setAttr_ne (l : List (String × String)) (k k2 v : String)
    (h : k2 ≠ k) : getAttr (setAttr l k2 v) k = getAttr l k := by
  induction l with
  | nil => simp [setAttr, getAttr, h]
  | cons kv rest ih =>
    rcases kv with ⟨k3, v3⟩
    by_cases h3 : k3 = k2
    · subst h3
      simp [setAttr, getAttr, h]
    · by_cases h4 : k3 = k
      · subst h4
        simp [setAttr, getAttr, h3]
      · simp [setAttr, getAttr, h3, h4, ih]

theorem findFirstTag_tag (t : String) (l : List Elem) (e : Elem)
    (h : findFirstTag t l = some e) : e.tag = t := by
  induction l with
  | nil => simp [findFirstTag] at h
  | cons a l ih =>
    by_cases ha : a.tag = t
    · rw [findFirstTag, if_pos ha] at h
      cases h
      exact ha
    · rw [findFirstTag, if_neg ha] at h
      exact ih h

/-- The period children of a child list. -/
def periodElems (l : List Elem) : List Elem :=
  l.filter (fun e => e.tag == "Period")

theorem periodElems_append (a b : List Elem) :
    periodElems (a ++ b) = periodElems a ++ periodElems b :=
  List.filter_append _ _

theorem periodElems_all (l : List Elem) (h : ∀ e ∈ l, e.tag = "Period") :
    periodElems l = l := by
  unfold periodElems
  rw [List.filter_eq_self]
  intro e he
  simp [h e he]

theorem removeFirst_period_empty (l : List Elem)
    (h : (periodElems l).length = 1) :
    periodElems (removeFirstTag "Period" l) = [] := by
  induction l with
  | nil => rfl
  | cons e l ih =>
    by_cases he : e.tag = "Period"
    · rw [removeFirstTag, if_pos he]
      have hcons : periodElems (e :: l) = e :: periodElems l := by
        simp [periodElems, List.filter_cons, he]
      rw [hcons] at h
      simp only [List.length_cons, Nat.add_left_cancel_iff] at h
      exact List.length_eq_zero.mp (by omega)
    · rw [removeFirstTag, if_neg he]
      have hcons : periodElems (e :: l) = periodElems l := by
        simp [periodElems, List.filter_cons, he]
      have hcons2 : periodElems (e :: removeFirstTag "Period" l)
          = periodElems (removeFirstTag "Period" l) := by
        simp [periodElems, List.filter_cons, he]
      rw [hcons2]
      exact ih (by rw [← hcons]; exact h)

theorem exMapM_get {α β : Type} (f : α → Except PyErr β) :
    ∀ (l : List α) (l2 : List β), exMapM f l = .ok l2 →
      l2.length = l.length ∧
        ∀ k (hk : k < l.length) (hk2 : k < l2.length),
          f (l.get ⟨k, hk⟩) = .ok (l2.get ⟨k, hk2⟩) := by
  intro l
  induction l with
  | nil =>
    intro l2 h
    simp only [exMapM] at h
    cases h
    exact ⟨rfl, fun k hk hk2 => absurd hk (by simp)⟩
  | cons a as ih =>
    intro l2 h
    simp only [exMapM] at h
    split at h
    · exact absurd h (by simp)
    · rename_i b hb
      split at h
      · exact absurd h (by simp)
      · rename_i bs hbs
        cases h
        rcases ih bs hbs with ⟨hlen, hget⟩
        refine ⟨by simp [hlen], ?_⟩
        intro k hk hk2
        cases k with
        | zero => simpa using hb
        | succ k =>
          simp only [List.get_cons_succ]
          exact hget k (by simpa using hk) (by simpa using hk2)

/-! ## Structure of the merge loop -/

theorem transformPeriodRefs_fields (relp : String) (p p2 : Elem)
    (h : transformPeriodRefs relp p = .ok p2) :
    p2.tag = p.tag ∧ p2.attrib = p.attrib ∧
      exMapM (transformPeriodChild relp) p.children = .ok p2.children := by
  unfold transformPeriodRefs at h
  split at h
  · exact absurd h (by simp)
  · rename_i cs hcs
    cases h
    exact ⟨rfl, rfl, hcs⟩

theorem timingStep_ok (mode : StreamingMode) (job : PackagerJob) (p : Elem)
    (total : ISO8601) (p2 : Elem) (total2 : ISO8601)
    (h : timingStep mode job p total = .ok (p2, total2)) :
    p2.tag = p.tag ∧ getAttr p2.attrib "id" = getAttr p.attrib "id" := by
  cases mode with
  | VOD =>
    simp only [timingStep] at h
    split at h
    · exact absurd h (by simp)
    · rename_i dur hdur
      split at h
      · exact absurd h (by simp)
      · rename_i d hd
        cases h
        exact ⟨rfl, getAttr_setAttr_ne _ _ _ _ (by decide)⟩
  | LIVE =>
    simp only [timingStep] at h
    cases h
    exact ⟨rfl, getAttr_setAttr_ne _ _ _ _ (by decide)⟩

theorem timingStep_live (job : PackagerJob) (p : Elem) (total : ISO8601)
    (p2 : Elem) (total2 : ISO8601)
    (h : timingStep .LIVE job p total = .ok (p2, total2)) :
    p2 = { p with attrib := setAttr p.attrib "start" total.str } ∧
      total2 = total := by
  simp only [timingStep] at h
  cases h
  exact ⟨rfl, rfl⟩

/-- Every period collected by the loop carries the `Period` tag and the
identifier string of its job index. -/
theorem concatLoop_ok (cfg : PipelineCfg) (jobs : List PackagerJob) :
    ∀ (i : ℕ) (total total2 : ISO8601) (ps : List Elem),
      concatLoop cfg i total jobs = .ok (total2, ps) →
      ps.length = jobs.length ∧
        ∀ k (hk : k < ps.length),
          (ps.get ⟨k, hk⟩).tag = "Period" ∧
          getAttr (ps.get ⟨k, hk⟩).attrib "id" = some (decRepr (i + k)) := by
  induction jobs with
  | nil =>
    intro i total total2 ps h
    simp only [concatLoop] at h
    cases h
    exact ⟨rfl, fun k hk => absurd hk (by simp)⟩
  | cons job rest ih =>
    intro i total total2 ps h
    simp only [concatLoop] at h
    split at h
    · exact absurd h (by simp)
    · rename_i period hfind
      split at h
      · exact absurd h (by simp)
      · rename_i p2 total2a htim
        split at h
        · exact absurd h (by simp)
        · rename_i p3 htrans
          split at h
          · exact absurd h (by simp)
          · rename_i total3 ps2 hloop
            cases h
            rcases ih (i + 1) total2a total2 ps2 hloop with ⟨hlen, hget⟩
            rcases transformPeriodRefs_fields _ _ _ htrans with ⟨htag3, hattr3, -⟩
            rcases timingStep_ok _ _ _ _ _ _ htim with ⟨htag2, hid2⟩
            constructor
            · simp [hlen]
            · intro k hk
              cases k with
              | zero =>
                constructor
                · show p3.tag = "Period"
                  rw [htag3, htag2]
                  show period.tag = "Period"
                  exact findFirstTag_tag _ _ _ hfind
                · show getAttr p3.attrib "id" = some (decRepr (i + 0))
                  rw [hattr3, hid2]
                  show getAttr (setAttr period.attrib "id" (decRepr i)) "id"
                    = some (decRepr (i + 0))
                  rw [getAttr_setAttr_self]
                  simp
              | succ k =>
                have hk2 : k < ps2.length := by simpa using hk
                rcases hget k hk2 with ⟨ht, hi⟩
                refine ⟨ht, ?_⟩
                rw [show i + (k + 1) = i + 1 + k by omega]
                exact hi

/-- In LIVE mode the loop never advances the running total and stamps the
initial total as every period start. -/
theorem concatLoop_live (cfg : PipelineCfg) (hmode : cfg.mode = .LIVE)
    (jobs : List PackagerJob) :
    ∀ (i : ℕ) (total total2 : ISO8601) (ps : List Elem),
      concatLoop cfg i total jobs = .ok (total2, ps) →
      total2 = total ∧
        ∀ k (hk : k < ps.length),
          getAttr (ps.get ⟨k, hk⟩).attrib "start" = some total.str := by
  induction jobs with
  | nil =>
    intro i total total2 ps h
    simp only [concatLoop] at h
    cases h
    exact ⟨rfl, fun k hk => absurd hk (by simp)⟩
  | cons job rest ih =>
    intro i total total2 ps h
    simp only [concatLoop] at h
    split at h
    · exact absurd h (by simp)
    · rename_i period hfind
      split at h
      · exact absurd h (by simp)
      · rename_i p2 total2a htim
        split at h
        · exact absurd h (by simp)
        · rename_i p3 htrans
          split at h
          · exact absurd h (by simp)
          · rename_i total3 ps2 hloop
            cases h
            rw [hmode] at htim
            rcases timingStep_live _ _ _ _ _ htim with ⟨hp2, htot⟩
            subst htot
            rcases ih (i + 1) total2a total2 ps2 hloop with ⟨htot3, hget⟩
            rcases transformPeriodRefs_fields _ _ _ htrans with ⟨-, hattr3, -⟩
            refine ⟨htot3, ?_⟩
            intro k hk
            cases k with
            | zero =>
              show getAttr p3.attrib "start" = some total2a.str
              rw [hattr3, hp2]
              show getAttr (setAttr (setAttr period.attrib "id" (decRepr i))
                "start" total2a.str) "start" = some total2a.str
              exact getAttr_setAttr_self _ _ _
            | succ k =>
              have hk2 : k < ps2.length := by simpa using hk
              exact hget k hk2

/-- Shape of a successful merge: the first document gives the skeleton,
the loop gives the appended periods, VOD sets the aggregate duration. -/
theorem dashConcat_ok (cfg : PipelineCfg) (jobs : List PackagerJob)
    (path : List String) (merged : Elem)
    (h : dashConcat cfg jobs = .ok (path, merged)) :
    ∃ j0 rest total ps, jobs = j0 :: rest ∧
      concatLoop cfg 0 ISO8601.default0 jobs = .ok (total, ps) ∧
      merged.children = removeFirstTag "Period" j0.manifest.children ++ ps ∧
      path = cfg.outputDir ++ [cfg.dashOutput] ∧
      (cfg.mode = .VOD →
        getAttr merged.attrib "mediaPresentationDuration" = some total.str) := by
  cases jobs with
  | nil => simp [dashConcat] at h
  | cons j0 rest =>
    simp only [dashConcat] at h
    split at h
    · exact absurd h (by simp)
    · rename_i p0 hfind
      split at h
      · exact absurd h (by simp)
      · rename_i total ps hloop
        refine ⟨j0, rest, total, ps, rfl, hloop, ?_⟩
        cases hmode : cfg.mode with
        | VOD =>
          rw [hmode] at h
          cases h
          refine ⟨rfl, rfl, fun _ => ?_⟩
          simp [getAttr_setAttr_self]
        | LIVE =>
          rw [hmode] at h
          cases h
          exact ⟨rfl, rfl, fun hv => nomatch hv⟩

/-! ## The status scan -/

theorem scanStatuses_err (statuses : List ProcessStatus) :
    ∀ (i j : ℕ), statuses[j]? = some .Errored →
      (∀ k < j, statuses[k]? = some .Finished) →
      scanStatuses i statuses = .sawErrored (i + j) := by
  induction statuses with
  | nil => intro i j h; simp at h
  | cons s rest ih =>
    intro i j hj hk
    cases j with
    | zero =>
      simp only [List.getElem?_cons_zero, Option.some.injEq] at hj
      subst hj
      rfl
    | succ j =>
      have h0 : s = .Finished := by
        have := hk 0 (by omega)
        simpa using this
      subst h0
      have hstep : scanStatuses i (.Finished :: rest) = scanStatuses (i + 1) rest := rfl
      rw [hstep, show i + (j + 1) = i + 1 + j by omega]
      refine ih (i + 1) j (by simpa using hj) ?_
      intro k hkj
      have := hk (k + 1) (by omega)
      simpa using this

/-! ## Reaching every reference under a period -/

theorem updAttr_other (relp key k : String) (attrs : List (String × String))
    (h : key ≠ k) : getAttr (updAttr relp key attrs) k = getAttr attrs k := by
  unfold updAttr
  split
  · rename_i s hs
    by_cases he : s ≠ ""
    · rw [if_pos he]
      exact getAttr_setAttr_ne _ _ _ _ h
    · rw [if_neg he]
  · rfl

theorem updAttr_self (relp key : String) (attrs : List (String × String))
    (s : String) (hs : getAttr attrs key = some s) (hne : s ≠ "") :
    getAttr (updAttr relp key attrs) key = some (pyJoin relp s) := by
  unfold updAttr
  rw [hs]
  show getAttr (if s ≠ "" then setAttr attrs key (pyJoin relp s) else attrs) key
    = some (pyJoin relp s)
  rw [if_pos hne]
  exact getAttr_setAttr_self _ _ _

theorem transformPeriodChild_as (relp : String) (asE asE2 : Elem)
    (htag : asE.tag = "AdaptationSet")
    (h : transformPeriodChild relp asE = .ok asE2) :
    exMapM (transformASChild relp) asE.children = .ok asE2.children := by
  unfold transformPeriodChild at h
  rw [if_pos htag] at h
  split at h
  · exact absurd h (by simp)
  · rename_i cs hcs
    cases h
    exact hcs

theorem transformASChild_rep (relp : String) (repE repE2 : Elem)
    (htag : repE.tag = "Representation")
    (h : transformASChild relp repE = .ok repE2) :
    exMapM (transformRepChild relp) repE.children = .ok repE2.children := by
  unfold transformASChild at h
  rw [if_pos htag] at h
  split at h
  · exact absurd h (by simp)
  · rename_i cs hcs
    cases h
    exact hcs

/-- Lift an index through one `exMapM` level. -/
theorem exMapM_at {α β : Type} (f : α → Except PyErr β) (l : List α)
    (l2 : List β) (h : exMapM f l = .ok l2) (k : ℕ) (x : α)
    (hx : l[k]? = some x) : ∃ y, l2[k]? = some y ∧ f x = .ok y := by
  rcases exMapM_get f l l2 h with ⟨hlen, hget⟩
  rcases List.getElem?_eq_some_iff.mp hx with ⟨hk, hxval⟩
  have hk2 : k < l2.length := by omega
  refine ⟨l2.get ⟨k, hk2⟩, ?_, ?_⟩
  · rw [List.getElem?_eq_some_iff]
    exact ⟨hk2, rfl⟩
  · have h2 := hget k hk hk2
    rwa [show l.get ⟨k, hk⟩ = x from by rw [List.get_eq_getElem, hxval]] at h2

/-- The rewriting pass reaches the element at any
`AdaptationSet / Representation / child` path and transforms it with
`transformRepChild`. -/
theorem transform_reaches (relp : String) (p p2 : Elem)
    (h : transformPeriodRefs relp p = .ok p2)
    (a r k : ℕ) (asE repE stE : Elem)
    (ha : p.children[a]? = some asE) (htagA : asE.tag = "AdaptationSet")
    (hr : asE.children[r]? = some repE) (htagR : repE.tag = "Representation")
    (hk : repE.children[k]? = some stE) :
    ∃ asE2 repE2 stE2,
      p2.children[a]? = some asE2 ∧ asE2.children[r]? = some repE2 ∧
        repE2.children[k]? = some stE2 ∧
        transformRepChild relp stE = .ok stE2 := by
  rcases transformPeriodRefs_fields _ _ _ h with ⟨-, -, hmap⟩
  rcases exMapM_at _ _ _ hmap a asE ha with ⟨asE2, ha2, hfa⟩
  rcases exMapM_at _ _ _ (transformPeriodChild_as _ _ _ htagA hfa) r repE hr with
    ⟨repE2, hr2, hfr⟩
  rcases exMapM_at _ _ _ (transformASChild_rep _ _ _ htagR hfr) k stE hk with
    ⟨stE2, hk2, hfk⟩
  exact ⟨asE2, repE2, stE2, ha2, hr2, hk2, hfk⟩

theorem foldl_const {α β : Type} (l : List β) (x : α) :
    l.foldl (fun acc _ => acc) x = x := by
  induction l generalizing x with
  | nil => rfl
  | cons b l ih => exact ih x

/-! ## Concrete fixtures for the scenario claims -/

/-- A single-period input manifest reporting a 10-second total duration in
canonical all-components form. -/
def mpdTen : Elem :=
  ⟨"MPD", [("mediaPresentationDuration", "P0Y0M0DT0H0M10S")], none,
    [⟨"Period", [], none, []⟩]⟩

def jobsTen : List PackagerJob :=
  [⟨["jobs", "0"], mpdTen⟩, ⟨["jobs", "1"], mpdTen⟩, ⟨["jobs", "2"], mpdTen⟩]

def cfgVod : PipelineCfg := ⟨.VOD, true, false, ["out"], "dash.mpd"⟩

def cfgLive : PipelineCfg := ⟨.LIVE, true, false, ["out"], "dash.mpd"⟩

/-- The merged document of the three-job VOD scenario. -/
def mergedTen : Elem :=
  ⟨"MPD", [("mediaPresentationDuration", "P0Y0M0DT0H0M30.0S")], none,
    [⟨"Period", [("id", "0"), ("duration", "P0Y0M0DT0H0M10S")], none, []⟩,
     ⟨"Period", [("id", "1"), ("duration", "P0Y0M0DT0H0M10S")], none, []⟩,
     ⟨"Period", [("id", "2"), ("duration", "P0Y0M0DT0H0M10S")], none, []⟩]⟩

/-- The merged document of the same three jobs in LIVE mode. -/
def mergedTenLive : Elem :=
  ⟨"MPD", [("mediaPresentationDuration", "P0Y0M0DT0H0M10S")], none,
    [⟨"Period", [("id", "0"), ("start", "P0Y0M0DT0H0M0S")], none, []⟩,
     ⟨"Period", [("id", "1"), ("start", "P0Y0M0DT0H0M0S")], none, []⟩,
     ⟨"Period", [("id", "2"), ("start", "P0Y0M0DT0H0M0S")], none, []⟩]⟩

/-- A period holding one multi-segment and one single-segment
representation. -/
def stW : Elem :=
  ⟨"SegmentTemplate",
    [("initialization", "init.mp4"), ("media", "seg-$Number$.mp4")], none, []⟩

def baseW : Elem := ⟨"BaseURL", [], some "media.mp4", []⟩

def repW : Elem := ⟨"Representation", [], none, [stW, baseW]⟩

def asW : Elem := ⟨"AdaptationSet", [], none, [repW]⟩

def periodW : Elem := ⟨"Period", [], none, [asW]⟩

def stW2 : Elem :=
  ⟨"SegmentTemplate",
    [("initialization", "../jobs/2/init.mp4"),
     ("media", "../jobs/2/seg-$Number$.mp4")], none, []⟩

def baseW2 : Elem := ⟨"BaseURL", [], some "../jobs/2/media.mp4", []⟩

def repW2 : Elem := ⟨"Representation", [], none, [stW2, baseW2]⟩

def asW2 : Elem := ⟨"AdaptationSet", [], none, [repW2]⟩

def periodW2 : Elem := ⟨"Period", [], none, [asW2]⟩

/-- A manifest whose single representation references an absolute URI. -/
def baseAbs : Elem := ⟨"BaseURL", [], some "https://example.com/seg.mp4", []⟩

def mpdAbs : Elem :=
  ⟨"MPD", [], none,
    [⟨"Period", [], none,
      [⟨"AdaptationSet", [], none,
        [⟨"Representation", [], none, [baseAbs]⟩]⟩]⟩]⟩

def jobsAbs : List PackagerJob := [⟨["jobs", "2"], mpdAbs⟩]

/-- The running total in front of period `i` per §4.3 step 2c of the
specification: in open-ended mode no prior period contributes anything,
so the fold adds nothing. -/
def liveTotalBefore (i : ℕ) : ISO8601 :=
  (List.range i).foldl (fun acc _ => acc) ISO8601.default0

theorem liveTotalBefore_eq (i : ℕ) : liveTotalBefore i = ISO8601.default0 :=
  foldl_const _ _

/-! ## The claims -/

/-- C1: for every list of job handles whose documents each contain a
(single, per the §3 data model) period child, a successful merge produces
a document whose children are the first document's de-perioded skeleton
children followed by one transformed period per job in job-index order;
those appended elements are exactly the period elements of the merged
document, `N` of them, tagged `Period` with identifier strings
`"0"`..`"N-1"` (`str(i)` of the loop index).  The merge takes no
completion-order input: any two all-Finished status observations yield
the same tick result, so the outcome is independent of the order in which
jobs finished. -/
theorem c1_merge_period_structure (cfg : PipelineCfg) (jobs : List PackagerJob)
    (path : List String) (merged : Elem)
    (hok : dashConcat cfg jobs = .ok (path, merged))
    (hone : ∀ job ∈ jobs, (periodElems job.manifest.children).length = 1) :
    (∃ j0 rest ps, jobs = j0 :: rest ∧
      merged.children = removeFirstTag "Period" j0.manifest.children ++ ps ∧
      periodElems merged.children = ps ∧
      ps.length = jobs.length ∧
      ∀ k (hk : k < ps.length),
        (ps.get ⟨k, hk⟩).tag = "Period" ∧
        getAttr (ps.get ⟨k, hk⟩).attrib "id" = some (decRepr k)) ∧
    ∀ st1 st2 : List ProcessStatus,
      scanStatuses 0 st1 = .allFinished → scanStatuses 0 st2 = .allFinished →
      singlePass cfg st1 jobs = singlePass cfg st2 jobs := by
  constructor
  · rcases dashConcat_ok cfg jobs path merged hok with
      ⟨j0, rest, total, ps, hjobs, hloop, hchild, -, -⟩
    rcases concatLoop_ok cfg jobs 0 ISO8601.default0 total ps hloop with ⟨hlen, hget⟩
    have htags : ∀ e ∈ ps, e.tag = "Period" := by
      intro e he
      rcases List.mem_iff_get.mp he with ⟨⟨k, hk⟩, hke⟩
      rw [← hke]
      exact (hget k hk).1
    refine ⟨j0, rest, ps, hjobs, hchild, ?_, hlen, ?_⟩
    · rw [hchild, periodElems_append,
        removeFirst_period_empty _ (hone j0 (by rw [hjobs]; exact List.mem_cons_self _ _)),
        periodElems_all ps htags]
      simp
    · intro k hk
      refine ⟨(hget k hk).1, ?_⟩
      have := (hget k hk).2
      rwa [Nat.zero_add] at this
  · intro st1 st2 h1 h2
    unfold singlePass
    rw [h1, h2]

theorem c1_merge_period_structure_witness :
    (∃ j0 rest ps, jobsTen = j0 :: rest ∧
      mergedTen.children = removeFirstTag "Period" j0.manifest.children ++ ps ∧
      periodElems mergedTen.children = ps ∧
      ps.length = jobsTen.length ∧
      ∀ k (hk : k < ps.length),
        (ps.get ⟨k, hk⟩).tag = "Period" ∧
        getAttr (ps.get ⟨k, hk⟩).attrib "id" = some (decRepr k)) ∧
    ∀ st1 st2 : List ProcessStatus,
      scanStatuses 0 st1 = .allFinished → scanStatuses 0 st2 = .allFinished →
      singlePass cfgVod st1 jobsTen = singlePass cfgVod st2 jobsTen :=
  c1_merge_period_structure cfgVod jobsTen (["out", "dash.mpd"]) mergedTen
    (by rfl) (by decide)

/-- C2: in open-ended (LIVE) mode the merge stamps every period's
start-time attribute with the formatted running total at that point, and
that running total equals the §4.3-step-2c sum over the prior periods
`0..i-1` — a fold that adds nothing, because in this mode no per-period
duration is available to advance the total (the source leaves the
advance commented out).  Hence every start is the formatted initial
total. -/
theorem c2_live_start_running_total (cfg : PipelineCfg)
    (jobs : List PackagerJob) (path : List String) (merged : Elem)
    (hmode : cfg.mode = .LIVE)
    (hok : dashConcat cfg jobs = .ok (path, merged)) :
    ∃ j0 rest ps, jobs = j0 :: rest ∧
      merged.children = removeFirstTag "Period" j0.manifest.children ++ ps ∧
      ∀ k (hk : k < ps.length),
        getAttr (ps.get ⟨k, hk⟩).attrib "start" = some (liveTotalBefore k).str := by
  rcases dashConcat_ok cfg jobs path merged hok with
    ⟨j0, rest, total, ps, hjobs, hloop, hchild, -, -⟩
  rcases concatLoop_live cfg hmode jobs 0 ISO8601.default0 total ps hloop with
    ⟨-, hget⟩
  refine ⟨j0, rest, ps, hjobs, hchild, ?_⟩
  intro k hk
  rw [liveTotalBefore_eq]
  exact hget k hk

theorem c2_live_start_running_total_witness :
    ∃ j0 rest ps, jobsTen = j0 :: rest ∧
      mergedTenLive.children = removeFirstTag "Period" j0.manifest.children ++ ps ∧
      ∀ k (hk : k < ps.length),
        getAttr (ps.get ⟨k, hk⟩).attrib "start" = some (liveTotalBefore k).str :=
  c2_live_start_running_total cfgLive jobsTen (["out", "dash.mpd"]) mergedTenLive
    (by rfl) (by rfl)

/-- C3 counterexample: in the three-job VOD scenario with each manifest
reporting the 10-second duration `"P0Y0M0DT0H0M10S"`, the merged
aggregate duration is `"P0Y0M0DT0H0M30.0S"` — the seconds component is a
Python float and prints with a decimal point — not the claimed
`"P0Y0M0DT0H0M30S"`. -/
theorem c3_aggregate_counterexample :
    (dashConcat cfgVod jobsTen).map
        (fun r => getAttr r.2.attrib "mediaPresentationDuration")
      = .ok (some "P0Y0M0DT0H0M30.0S") ∧
    (dashConcat cfgVod jobsTen).map
        (fun r => getAttr r.2.attrib "mediaPresentationDuration")
      ≠ .ok (some "P0Y0M0DT0H0M30S") := by
  constructor
  · rfl
  · intro h
    rw [show (dashConcat cfgVod jobsTen).map
        (fun r => getAttr r.2.attrib "mediaPresentationDuration")
      = .ok (some "P0Y0M0DT0H0M30.0S") from rfl] at h
    simp at h

/-- C3 amended: the scenario produces three periods with identifiers
`"0"`, `"1"`, `"2"`, each period's duration attribute copied verbatim
from its manifest (`"P0Y0M0DT0H0M10S"`), and the aggregate duration set
to the formatted `DurationValue` sum, which renders the float seconds as
`30.0`: `"P0Y0M0DT0H0M30.0S"`. -/
theorem c3_vod_scenario_amended :
    dashConcat cfgVod jobsTen = .ok (["out", "dash.mpd"], mergedTen) ∧
    (periodElems mergedTen.children).length = 3 ∧
    (periodElems mergedTen.children).map (fun e => getAttr e.attrib "id")
      = [some "0", some "1", some "2"] ∧
    (periodElems mergedTen.children).map (fun e => getAttr e.attrib "duration")
      = [some "P0Y0M0DT0H0M10S", some "P0Y0M0DT0H0M10S", some "P0Y0M0DT0H0M10S"] ∧
    getAttr mergedTen.attrib "mediaPresentationDuration"
      = some "P0Y0M0DT0H0M30.0S" ∧
    ISO8601.str (((ISO8601.default0.add (ISO8601.mk 0 0 0 0 0 (.pfloat ⟨10, 0⟩))).add
        (ISO8601.mk 0 0 0 0 0 (.pfloat ⟨10, 0⟩))).add
        (ISO8601.mk 0 0 0 0 0 (.pfloat ⟨10, 0⟩)))
      = "P0Y0M0DT0H0M30.0S" := by
  refine ⟨rfl, rfl, rfl, rfl, rfl, rfl⟩

/-- The canonical all-components-present form `PxYxMxDTxHxMxS` with every
component an integer, exactly as the claim writes it. -/
def canonicalIntRender (y mo d h mi s : ℕ) : String :=
  "P" ++ decRepr y ++ "Y" ++ decRepr mo ++ "M" ++ decRepr d ++ "DT" ++
    decRepr h ++ "H" ++ decRepr mi ++ "M" ++ decRepr s ++ "S"

/-- C4 counterexample: `"P0Y0M0DT0H0M10S"` is in canonical
all-components-present form, but `format(parse(s))` prints the seconds as
the float `10.0`, so the round trip returns a different string. -/
theorem c4_roundtrip_counterexample :
    canonicalIntRender 0 0 0 0 0 10 = "P0Y0M0DT0H0M10S" ∧
    (ISO8601.parse (canonicalIntRender 0 0 0 0 0 10)).map ISO8601.str
      = .ok "P0Y0M0DT0H0M10.0S" ∧
    (ISO8601.parse (canonicalIntRender 0 0 0 0 0 10)).map ISO8601.str
      ≠ .ok (canonicalIntRender 0 0 0 0 0 10) := by
  refine ⟨rfl, rfl, ?_⟩
  intro h
  rw [show (ISO8601.parse (canonicalIntRender 0 0 0 0 0 10)).map ISO8601.str
      = .ok "P0Y0M0DT0H0M10.0S" from rfl,
    show canonicalIntRender 0 0 0 0 0 10 = "P0Y0M0DT0H0M10S" from rfl] at h
  simp only [Except.ok.injEq] at h
  exact absurd h (by decide)

/-- C4 amended: the round trip holds once the seconds component of the
canonical string is already written in float-repr form (`x.0` for whole
seconds): `format(parse(s)) = s` for every such string.  The bound on the
seconds value marks the regime in which the exact-decimal model of the
Python double is faithful (whole seconds below `10^15` are exactly
representable and repr-ed positionally). -/
theorem c4_roundtrip_amended (y mo d h mi s : ℕ) (hs : s < 10 ^ 15) :
    (ISO8601.parse (canonicalRender y mo d h mi s)).map ISO8601.str
      = .ok (canonicalRender y mo d h mi s) := by
  rw [parse_canonical, (decRepr_spec s).2.2]
  simp only [Except.map]
  rw [str_canonical y mo d h mi s (lt_trans hs (by norm_num))]

theorem c4_roundtrip_amended_witness :
    (ISO8601.parse (canonicalRender 0 0 0 0 0 10)).map ISO8601.str
      = .ok (canonicalRender 0 0 0 0 0 10) :=
  c4_roundtrip_amended 0 0 0 0 0 10 (by norm_num)

/-- C6 counterexample: `parse` does not fail exactly off the claimed
grammar.  `"PT.5S"` is outside the grammar `n[.n]` for seconds yet parses
(Python `float` accepts `".5"`), and `"P\n"` is outside the grammar yet
parses because the `$` anchor of `re` also matches before a final
newline. -/
theorem c6_grammar_counterexample :
    claimGrammar "PT.5S" = false ∧ exOk (ISO8601.parse "PT.5S") = true ∧
    claimGrammar "P\n" = false ∧ exOk (ISO8601.parse "P\n") = true := by
  refine ⟨rfl, rfl, rfl, rfl⟩

/-- C6 amended: `parse(text)` fails exactly when `text` fails the grammar
`P[nY][nM][nD][T[nH][nM][secS]]` extended so that the seconds token `sec`
is any digits-and-dot string `float()` accepts (at least one digit, at
most one dot, the dot possibly leading or trailing) and so that one
trailing newline is tolerated by the `$` anchor; and whenever the time
portion or the seconds sub-part is absent (no `S` in the accepted text)
the resulting seconds component is the float zero. -/
theorem c6_parse_grammar_amended :
    (∀ s : String, exOk (ISO8601.parse s) = extGrammar s) ∧
    (∀ (s : String) (v : ISO8601), ISO8601.parse s = .ok v → 'S' ∉ s.data →
      v.seconds = PyNum.pfloat ⟨0, 0⟩) :=
  ⟨parse_ok_iff_ext, parse_seconds_default⟩

theorem c6_parse_grammar_amended_witness :
    (exOk (ISO8601.parse "PT5M") = extGrammar "PT5M") ∧
    ISO8601.parse "PT5M" = .ok ⟨0, 0, 0, 0, 5, .pfloat ⟨0, 0⟩⟩ ∧
    (⟨0, 0, 0, 0, 5, .pfloat ⟨0, 0⟩⟩ : ISO8601).seconds = PyNum.pfloat ⟨0, 0⟩ :=
  ⟨c6_parse_grammar_amended.1 "PT5M", rfl,
    c6_parse_grammar_amended.2 "PT5M" ⟨0, 0, 0, 0, 5, .pfloat ⟨0, 0⟩⟩ rfl
      (by decide)⟩

/-- The text of the element reached by a child-index path. -/
def textAtPath : Elem → List ℕ → Option String
  | e, [] => e.text
  | e, i :: rest =>
    match e.children[i]? with
    | none => none
    | some c => textAtPath c rest

/-- C7: rewriting a reference that is relative to the job output
directory prefixes it with the relative path from the overall output
directory to the job directory; with source `jobs/2` and destination
`out` this is `../jobs/2`, so `seg-$Number$.mp4` becomes
`../jobs/2/seg-$Number$.mp4`.  The pass applies this rewrite to the
`media` and `initialization` attributes of every `SegmentTemplate` and to
the text of every `BaseURL` reached along an
`AdaptationSet / Representation` path under the period. -/
theorem c7_reference_rewrite :
    relpathStr ["jobs", "2"] ["out"] = "../jobs/2" ∧
    rewriteRef ["jobs", "2"] ["out"] "seg-$Number$.mp4"
      = "../jobs/2/seg-$Number$.mp4" ∧
    (∀ ref : String, ref.data.head? ≠ some '/' → ref ≠ "" →
      rewriteRef ["jobs", "2"] ["out"] ref = "../jobs/2/" ++ ref) ∧
    (∀ (relp : String) (p p2 : Elem) (a r k : ℕ) (asE repE stE : Elem),
      transformPeriodRefs relp p = .ok p2 →
      p.children[a]? = some asE → asE.tag = "AdaptationSet" →
      asE.children[r]? = some repE → repE.tag = "Representation" →
      repE.children[k]? = some stE →
      ∃ asE2 repE2 stE2, p2.children[a]? = some asE2 ∧
        asE2.children[r]? = some repE2 ∧ repE2.children[k]? = some stE2 ∧
        (stE.tag = "SegmentTemplate" →
          (∀ m, getAttr stE.attrib "media" = some m → m ≠ "" →
            getAttr stE2.attrib "media" = some (pyJoin relp m)) ∧
          (∀ ini, getAttr stE.attrib "initialization" = some ini → ini ≠ "" →
            getAttr stE2.attrib "initialization" = some (pyJoin relp ini))) ∧
        (stE.tag = "BaseURL" → ∀ t, stE.text = some t →
          stE2.text = some (pyJoin relp t))) := by
  refine ⟨rfl, rfl, ?_, ?_⟩
  · intro ref h1 h2
    unfold rewriteRef
    rw [show relpathStr ["jobs", "2"] ["out"] = "../jobs/2" from rfl]
    unfold pyJoin
    rw [if_neg h1, if_neg ?_]
    · rw [show ("../jobs/2" ++ "/" : String) = "../jobs/2/" from rfl]
    · rintro (he | hl)
      · exact absurd he (by decide)
      · exact absurd hl (by decide)
  · intro relp p p2 a r k asE repE stE h ha htagA hr htagR hk
    rcases transform_reaches relp p p2 h a r k asE repE stE ha htagA hr htagR hk with
      ⟨asE2, repE2, stE2, h1, h2, h3, hfk⟩
    refine ⟨asE2, repE2, stE2, h1, h2, h3, ?_, ?_⟩
    · intro htagS
      unfold transformRepChild at hfk
      rw [if_pos htagS] at hfk
      simp only [Except.ok.injEq] at hfk
      subst hfk
      constructor
      · intro m hm hmne
        show getAttr (updAttr relp "media" (updAttr relp "initialization" stE.attrib))
            "media" = some (pyJoin relp m)
        refine updAttr_self relp "media" _ m ?_ hmne
        rw [updAttr_other relp "initialization" "media" _ (by decide)]
        exact hm
      · intro ini hini hinine
        show getAttr (updAttr relp "media" (updAttr relp "initialization" stE.attrib))
            "initialization" = some (pyJoin relp ini)
        rw [updAttr_other relp "media" "initialization" _ (by decide)]
        exact updAttr_self relp "initialization" _ ini hini hinine
    · intro htagB t ht
      unfold transformRepChild at hfk
      rw [if_neg (by rw [htagB]; decide), if_pos htagB] at hfk
      have hrb : rewriteBase relp stE = .ok { stE with text := some (pyJoin relp t) } := by
        unfold rewriteBase
        rw [ht]
      rw [hrb] at hfk
      simp only [Except.ok.injEq] at hfk
      rw [← hfk]

theorem c7_reference_rewrite_witness :
    rewriteRef ["jobs", "2"] ["out"] "x.mp4" = "../jobs/2/x.mp4" ∧
    (∃ asE2 repE2 stE2, periodW2.children[0]? = some asE2 ∧
      asE2.children[0]? = some repE2 ∧ repE2.children[0]? = some stE2 ∧
      (stW.tag = "SegmentTemplate" →
        (∀ m, getAttr stW.attrib "media" = some m → m ≠ "" →
          getAttr stE2.attrib "media" = some (pyJoin "../jobs/2" m)) ∧
        (∀ ini, getAttr stW.attrib "initialization" = some ini → ini ≠ "" →
          getAttr stE2.attrib "initialization" = some (pyJoin "../jobs/2" ini))) ∧
      (stW.tag = "BaseURL" → ∀ t, stW.text = some t →
        stE2.text = some (pyJoin "../jobs/2" t))) :=
  ⟨c7_reference_rewrite.2.2.1 "x.mp4" (by decide) (by decide),
    c7_reference_rewrite.2.2.2 "../jobs/2" periodW periodW2 0 0 0 asW repW stW
      (by rfl) rfl rfl rfl rfl rfl⟩

/-- C8 counterexample: the merge contains no absolute-reference check at
all.  A `BaseURL` holding the scheme URI `https://example.com/seg.mp4`
does not abort the merge: the merge succeeds and the URI is silently
prefixed with the relative job path, producing
`../jobs/2/https://example.com/seg.mp4`. -/
theorem c8_absolute_reference_counterexample :
    hasUriScheme "https://example.com/seg.mp4" = true ∧
    exOk (dashConcat cfgLive jobsAbs) = true ∧
    (dashConcat cfgLive jobsAbs).map (fun r => textAtPath r.2 [0, 0, 0, 0])
      = .ok (some "../jobs/2/https://example.com/seg.mp4") := by
  refine ⟨rfl, rfl, rfl⟩

/-- C8 amended: the rewrite step never detects absolute references and
never fails because of one.  A scheme URI does not begin with `/`, so
`os.path.join` prefixes it with the relative path like any relative
reference; the `SegmentTemplate` rewrite is total, and a `BaseURL` with
text always rewrites successfully — no UnsupportedReferenceError exists
and the merge proceeds. -/
theorem c8_absolute_reference_amended :
    (∀ relp ref : String, hasUriScheme ref = true → relp ≠ "" →
      relp.data.getLast? ≠ some '/' →
      pyJoin relp ref = relp ++ "/" ++ ref) ∧
    (∀ (relp : String) (e : Elem), e.tag = "SegmentTemplate" →
      transformRepChild relp e = .ok (rewriteST relp e)) ∧
    (∀ (relp : String) (e : Elem) (t : String), e.tag = "BaseURL" →
      e.text = some t →
      transformRepChild relp e = .ok { e with text := some (pyJoin relp t) }) := by
  refine ⟨?_, ?_, ?_⟩
  · intro relp ref hscheme hne hlast
    have hhead : ref.data.head? ≠ some '/' := by
      unfold hasUriScheme at hscheme
      rw [Bool.and_eq_true] at hscheme
      cases hd : ref.data with
      | nil => simp [hd]
      | cons c rest =>
        rw [hd] at hscheme
        simp only [List.headD_cons] at hscheme
        rw [List.head?_cons]
        intro hcontra
        simp only [Option.some.injEq] at hcontra
        rw [hcontra] at hscheme
        exact absurd hscheme.1 (by decide)
    unfold pyJoin
    rw [if_neg hhead, if_neg ?_]
    rintro (he | hl)
    · exact hne he
    · exact hlast hl
  · intro relp e htag
    unfold transformRepChild
    rw [if_pos htag]
  · intro relp e t htag ht
    unfold transformRepChild
    rw [if_neg (by rw [htag]; decide), if_pos htag]
    unfold rewriteBase
    rw [ht]

theorem c8_absolute_reference_amended_witness :
    pyJoin "../jobs/2" "https://example.com/seg.mp4"
      = "../jobs/2" ++ "/" ++ "https://example.com/seg.mp4" ∧
    transformRepChild "../jobs/2" stW = .ok (rewriteST "../jobs/2" stW) ∧
    transformRepChild "../jobs/2" baseAbs
      = .ok { baseAbs with
          text := some (pyJoin "../jobs/2" "https://example.com/seg.mp4") } :=
  ⟨c8_absolute_reference_amended.1 "../jobs/2" "https://example.com/seg.mp4"
      (by decide) (by decide) (by decide),
    c8_absolute_reference_amended.2.1 "../jobs/2" stW rfl,
    c8_absolute_reference_amended.2.2 "../jobs/2" baseAbs
      "https://example.com/seg.mp4" rfl rfl⟩

def jobsTwo : List PackagerJob :=
  [⟨["jobs", "0"], mpdTen⟩, ⟨["jobs", "1"], mpdTen⟩]

/-- C9 counterexample: the status loop returns early on the first
`Running` node, before looking at later nodes.  With job 0 `Running` and
job 1 `Errored` — an instance of the claimed scenario, job index 1
Errored while the others report Running or Finished — the tick is a
no-op: it stays polling instead of transitioning to the Errored state. -/
theorem c9_errored_tick_counterexample :
    singlePass cfgVod [ProcessStatus.Running, ProcessStatus.Errored] jobsTwo
      = PassResult.wait ∧
    PassResult.wait ≠ PassResult.errored 1 ∧
    writesOf (singlePass cfgVod [ProcessStatus.Running, ProcessStatus.Errored]
      jobsTwo) = [] :=
  ⟨rfl, fun h => PassResult.noConfusion h, rfl⟩

/-- C9 amended: on a tick in which some job reports Errored and every
lower-indexed job reports Finished (so the scan reaches it without
meeting a Running node first), the watcher raises the RuntimeError naming
that job index, the merge is never invoked and no output file is written;
a Running node at a lower index instead defers error detection to a later
tick. -/
theorem c9_errored_tick_amended (cfg : PipelineCfg)
    (statuses : List ProcessStatus) (jobs : List PackagerJob) (j : ℕ)
    (hj : statuses[j]? = some .Errored)
    (hk : ∀ k < j, statuses[k]? = some .Finished) :
    singlePass cfg statuses jobs = .errored j ∧
      writesOf (singlePass cfg statuses jobs) = [] := by
  have hscan : scanStatuses 0 statuses = .sawErrored j := by
    have h0 := scanStatuses_err statuses 0 j hj hk
    simpa using h0
  constructor
  · unfold singlePass
    rw [hscan]
  · unfold singlePass
    rw [hscan]
    rfl

theorem c9_errored_tick_amended_witness :
    singlePass cfgVod [ProcessStatus.Finished, ProcessStatus.Errored] jobsTwo
      = PassResult.errored 1 ∧
    writesOf (singlePass cfgVod [ProcessStatus.Finished, ProcessStatus.Errored]
      jobsTwo) = [] :=
  c9_errored_tick_amended cfgVod [ProcessStatus.Finished, ProcessStatus.Errored]
    jobsTwo 1 rfl (by intro k hk; interval_cases k; rfl)

/-- C10 counterexample: the float rendering does not always contain a
decimal point.  `parse("PT0.00001S")` stores the float `1e-05`, whose
magnitude is below `1e-4`, so `str` renders it in exponent notation with
no decimal point and the formatted duration is
`"P0Y0M0DT0H0M1e-05S"`. -/
theorem c10_decimal_point_counterexample :
    ISO8601.parse "PT0.00001S"
      = .ok ⟨0, 0, 0, 0, 0, PyNum.pfloat ⟨1, 5⟩⟩ ∧
    pyFloatRepr ⟨1, 5⟩ = "1e-05" ∧
    '.' ∉ (pyFloatRepr ⟨1, 5⟩).data ∧
    (¬ ∃ a b : String, pyFloatRepr ⟨1, 5⟩ = a ++ "." ++ b) ∧
    (ISO8601.parse "PT0.00001S").map ISO8601.str
      = .ok "P0Y0M0DT0H0M1e-05S" := by
  refine ⟨rfl, rfl, by decide, ?_, rfl⟩
  rintro ⟨a, b, hab⟩
  have hmem : '.' ∈ (pyFloatRepr ⟨1, 5⟩).data := by
    rw [hab]
    simp [String.data_append]
  rw [show pyFloatRepr ⟨1, 5⟩ = "1e-05" from rfl] at hmem
  exact absurd hmem (by decide)

/-- C10 amended: every `DurationValue` produced by `parse` stores a
Python float in its seconds field and addition of float seconds stays a
float; the float rendering contains a decimal point within the
positional repr regime (value zero, or decimal point position in
`(-4, 16]`, i.e. magnitude in `[1e-4, 1e16)`) — in particular
`format(parse("PT10S"))` is `"P0Y0M0DT0H0M10.0S"` — while outside that
regime the rendering switches to exponent notation, so
`format(parse("PT0.00001S"))` is `"P0Y0M0DT0H0M1e-05S"`; the
default-constructed `ISO8601()` holds the int `0` and formats as
`"P0Y0M0DT0H0M0S"` without a decimal point. -/
theorem c10_float_seconds_format :
    (∀ (s : String) (v : ISO8601), ISO8601.parse s = .ok v →
      ∃ f, v.seconds = PyNum.pfloat f) ∧
    (∀ f g : PyFloat, (PyNum.pfloat f).add (PyNum.pfloat g)
      = PyNum.pfloat (f.add g)) ∧
    (∀ f : PyFloat, f.num = 0 ∨ (-4 < decPos f ∧ decPos f ≤ 16) →
      ∃ a b : String, pyFloatRepr f = a ++ "." ++ b) ∧
    (ISO8601.parse "PT10S").map ISO8601.str = .ok "P0Y0M0DT0H0M10.0S" ∧
    (ISO8601.parse "PT0.00001S").map ISO8601.str
      = .ok "P0Y0M0DT0H0M1e-05S" ∧
    ISO8601.str ISO8601.default0 = "P0Y0M0DT0H0M0S" := by
  refine ⟨?_, fun f g => rfl, pyFloatRepr_positional_dot, rfl, rfl, rfl⟩
  intro s v h
  unfold ISO8601.parse parseAt at h
  rcases hm : pyMatchCore (stripNl s.data) with _ | g <;> rw [hm] at h
  · exact absurd h (by simp)
  · rcases parseGroups_seconds g v h with ⟨f, -, hsec⟩
    exact ⟨f, hsec⟩

theorem c10_float_seconds_format_witness :
    (∃ f, (⟨0, 0, 0, 0, 0, PyNum.pfloat ⟨10, 0⟩⟩ : ISO8601).seconds
      = PyNum.pfloat f) ∧
    (∃ a b : String, pyFloatRepr ⟨10, 0⟩ = a ++ "." ++ b) :=
  ⟨c10_float_seconds_format.1 "PT10S" ⟨0, 0, 0, 0, 0, PyNum.pfloat ⟨10, 0⟩⟩ rfl,
    c10_float_seconds_format.2.2.1 ⟨10, 0⟩ (Or.inr (by decide))⟩
